import Mathlib

/-!
Verification development for the ts-repo-prep indexing and graph-query engine.

The definitions below are a shallow embedding of the source files:
  * `src/graph-queries.ts` (the recursive impact-analysis SQL query),
  * `src/index/cache.ts` (`ensureCacheUpToDate`, the incremental sync engine),
  * `src/resolver/index.ts` and `src/resolver/path-normalizer.ts` (import resolution),
  * `src/mcp/handlers/symbols.ts` (symbol lookup, de-barrelling, proxy discovery),
  * the MCP dependency/impact handlers (`handleGetFileDependencies`,
    `handleAnalyzeChangeImpact`).

SQL strings are modelled over `String`; machine integers of the store are
modelled as `Int`.  SQLite's `instr` and `LIKE` operators are modelled by
executable substring tests defined from first principles below.
-/

namespace TsRepoPrep

/-- Boolean test: the first list of characters occurs at the front of the second. -/
def chPre : List Char → List Char → Bool
  | [], _ => true
  | _ :: _, [] => false
  | a :: as, b :: bs => a = b && chPre as bs

/-- Boolean test: `needle` occurs contiguously somewhere inside `hay`.
This models the SQLite condition `instr(hay, needle) <> 0`. -/
def chSub (needle : List Char) : List Char → Bool
  | [] => needle.isEmpty
  | c :: rest => chPre needle (c :: rest) || chSub needle rest

/-- String-level substring occurrence, used to model `instr(chain, path) = 0`
(the cycle-detection test of the recursive impact query) as `strHasSub = false`. -/
def strHasSub (hay needle : String) : Bool := chSub needle.data hay.data

/-- ASCII-only lowercasing, matching SQLite's default `LIKE` case folding
(`Char.toLower` only folds the ASCII range, exactly like SQLite's default). -/
def lowerAscii (s : String) : String := ⟨s.data.map Char.toLower⟩

/-- Models the SQL condition `hay LIKE '%' || name || '%'` for a `name` that
contains no `LIKE` metacharacters: a case-insensitive substring test.  The
source always builds the pattern by interpolating the queried symbol name
between two percent signs. -/
def likeContainsName (hay name : String) : Bool :=
  chSub (lowerAscii name).data (lowerAscii hay).data

/- ### Relational store model

`ImportRow` is a row of the `imports` table as written by `ensureCacheUpToDate`
(`src/index/cache.ts`): `(file_path, module_specifier, imported_symbols,
resolved_path)`.  The resolver returns the empty string for an
external/unresolved specifier, and that value is stored as-is. -/

structure ImportRow where
  file_path : String
  module_specifier : String
  imported_symbols : String
  resolved_path : String
deriving DecidableEq, Repr

/-- A row of the `exports` table: see the `insertExport` statement of
`src/index/cache.ts`.  `id` is the SQLite rowid, captured by the source as
`lastInsertRowid` and used as the `parent_id` of member rows. -/
structure ExportRow where
  id : Nat
  file_path : String
  name : String
  kind : String
  signature : String
  doc : String
  start_line : Int
  end_line : Int
  classification : String
  capabilities : String
  parent_id : Option Nat
deriving DecidableEq, Repr

/-- The slice of the persisted store that the graph queries read:
`files` is the set of file paths (the only column the queries join on),
plus the `imports` and `exports` tables. -/
structure Store where
  files : List String
  imports : List ImportRow
  exports : List ExportRow
deriving Repr

/- ### Impact analysis: embedding of IMPACT_ANALYSIS_QUERY
(src/graph-queries.ts).

The recursive CTE `dependency_chain` is evaluated level by level: `baseRows`
is the base case (depth 1), `stepRows` is one application of the recursive
step, and `iterRows n` is the set of rows derived by `n` applications of the
step.  The final `SELECT DISTINCT ... ORDER BY depth, consumer_path` is
`impactRows`. -/

structure ChainRow where
  consumer_path : String
  module_specifier : String
  imported_symbols : String
  source_path : String
  depth : Int
  path_chain : String
deriving DecidableEq, Repr

/-- Base case of the CTE: direct importers of the defining file whose
 imported-symbol list contains the symbol name, is a wildcard, or is blank.
The join `files f ON i.resolved_path = f.path WHERE f.path = target` is the
membership test `target ∈ db.files` together with `i.resolved_path = target`. -/
def baseRows (db : Store) (target symName : String) : List ChainRow :=
  db.imports.filterMap (fun i =>
    if i.resolved_path = target ∧ target ∈ db.files ∧
        (likeContainsName i.imported_symbols symName ∨
         i.imported_symbols = ("*") ∨ i.imported_symbols = ("")) then
      some { consumer_path := i.file_path
             module_specifier := i.module_specifier
             imported_symbols := i.imported_symbols
             source_path := target
             depth := 1
             path_chain := i.file_path ++ ("<-") ++ target }
    else none)

/-- Recursive step of the CTE: importers of a previously derived consumer,
guarded by the depth bound `dc.depth < maxDepth` and by the cycle test
`instr(dc.path_chain, i.file_path) = 0`. -/
def stepRows (db : Store) (maxDepth : Int) (prev : List ChainRow) : List ChainRow :=
  prev.flatMap (fun dc =>
    db.imports.filterMap (fun i =>
      if i.resolved_path = dc.consumer_path ∧ dc.depth < maxDepth ∧
          strHasSub dc.path_chain i.file_path = false then
        some { consumer_path := i.file_path
               module_specifier := i.module_specifier
               imported_symbols := i.imported_symbols
               source_path := dc.consumer_path
               depth := dc.depth + 1
               path_chain := i.file_path ++ ("<-") ++ dc.path_chain }
      else none))

/-- Rows derived by exactly `n` applications of the recursive step
(so every row of `iterRows db target symName d n` has depth `n + 1`). -/
def iterRows (db : Store) (target symName : String) (maxDepth : Int) : Nat → List ChainRow
  | 0 => baseRows db target symName
  | n + 1 => stepRows db maxDepth (iterRows db target symName maxDepth n)

/-- A row of the final result set of the impact query:
`SELECT DISTINCT consumer_path, depth, source_path, imported_symbols`. -/
structure ImpactRow where
  consumer_path : String
  depth : Int
  source_path : String
  imported_symbols : String
deriving DecidableEq, Repr

def ChainRow.project (r : ChainRow) : ImpactRow :=
  { consumer_path := r.consumer_path
    depth := r.depth
    source_path := r.source_path
    imported_symbols := r.imported_symbols }

/-- Stable insertion of an element into a list sorted by `le`. -/
def insertLe {α : Type} (le : α → α → Bool) (x : α) : List α → List α
  | [] => [x]
  | y :: ys => if le x y then x :: y :: ys else y :: insertLe le x ys

/-- Stable insertion sort by `le` (SQL `ORDER BY`; ties keep list order). -/
def sortWith {α : Type} (le : α → α → Bool) (l : List α) : List α :=
  l.foldr (insertLe le) []

/-- The ordering `ORDER BY dc.depth, dc.consumer_path` of the impact query. -/
def impactLe (a b : ImpactRow) : Bool :=
  a.depth < b.depth || (a.depth = b.depth && a.consumer_path ≤ b.consumer_path)

/-- All rows the recursive CTE can derive.  Levels at index
`db.imports.length` or beyond are empty (proved below), so enumerating the
first `db.imports.length` levels is exhaustive. -/
def allChainRows (db : Store) (target symName : String) (maxDepth : Int) : List ChainRow :=
  (List.range db.imports.length).flatMap (iterRows db target symName maxDepth)

/-- The full impact query: derive all chain rows, project, deduplicate
(`SELECT DISTINCT`) and sort (`ORDER BY depth, consumer_path`). -/
def impactRows (db : Store) (target symName : String) (maxDepth : Int) : List ImpactRow :=
  sortWith impactLe ((allChainRows db target symName maxDepth).map ChainRow.project).dedup

/- ### Substring lemmas for the cycle-detection test -/

theorem chPre_append (a t : List Char) : chPre a (a ++ t) = true := by
  induction a with
  | nil => rfl
  | cons c cs ih => simp [chPre, ih]

theorem chSub_of_chPre {n h : List Char} (hp : chPre n h = true) : chSub n h = true := by
  cases h with
  | nil =>
    cases n with
    | nil => rfl
    | cons c cs => simp [chPre] at hp
  | cons c cs => simp [chSub, hp]

theorem chSub_append_left {n b : List Char} (a : List Char) (hs : chSub n b = true) :
    chSub n (a ++ b) = true := by
  induction a with
  | nil => simpa using hs
  | cons c cs ih =>
    simp only [List.cons_append, chSub, Bool.or_eq_true]
    exact Or.inr ih

theorem chSub_self_append (a t : List Char) : chSub a (a ++ t) = true :=
  chSub_of_chPre (chPre_append a t)

/-- An occurrence inside the tail of a chain survives prepending new links. -/
theorem strHasSub_append_left (a b x : String) (h : strHasSub b x = true) :
    strHasSub (a ++ b) x = true := by
  unfold strHasSub at *
  rw [String.data_append]
  exact chSub_append_left a.data h

/-- The head of a chain occurs in the chain. -/
theorem strHasSub_self_append (a t : String) : strHasSub (a ++ t) a = true := by
  unfold strHasSub
  rw [String.data_append]
  exact chSub_self_append a.data t.data

/-- A string occurs in itself. -/
theorem strHasSub_self (a : String) : strHasSub a a = true := by
  have h := strHasSub_self_append a ("")
  simpa using h

/- ### The chain invariant of the recursive impact query -/

/-- The rendering of a chain of file paths as the `path_chain` column:
links are joined by the separator `<-`, exactly as the query builds it. -/
def chainStr : List String → String
  | [] => ""
  | [x] => x
  | x :: y :: rest => x ++ ("<-") ++ chainStr (y :: rest)

theorem chainStr_cons (x : String) (l : List String) (h : l ≠ []) :
    chainStr (x :: l) = x ++ ("<-") ++ chainStr l := by
  cases l with
  | nil => exact absurd rfl h
  | cons y rest => rfl

/-- Invariant carried by every row the recursive CTE derives at level `n`:
its chain is a separator-joined list of `n + 1` pairwise-distinct consumer
files followed by the defining file, every chain member occurs as a
substring of the chain column, and the depth column counts the consumers. -/
def RowOK (db : Store) (target : String) (n : Nat) (r : ChainRow) : Prop :=
  ∃ cs : List String,
    cs.length = n + 1 ∧
    cs.Nodup ∧
    (∀ c ∈ cs, c ∈ db.imports.map ImportRow.file_path) ∧
    (∀ c ∈ cs, strHasSub r.path_chain c = true) ∧
    strHasSub r.path_chain target = true ∧
    r.depth = ((n : Int) + 1) ∧
    cs.head? = some r.consumer_path ∧
    (n ≠ 0 → r.consumer_path ≠ target) ∧
    r.path_chain = chainStr (cs ++ [target])

theorem rowOK_of_mem_iterRows (db : Store) (target symName : String) (maxDepth : Int) :
    ∀ n, ∀ r ∈ iterRows db target symName maxDepth n, RowOK db target n r := by
  intro n
  induction n with
  | zero =>
    intro r hr
    simp only [iterRows, baseRows, List.mem_filterMap] at hr
    obtain ⟨i, hi, hcond⟩ := hr
    by_cases hc : i.resolved_path = target ∧ target ∈ db.files ∧
        (likeContainsName i.imported_symbols symName ∨
         i.imported_symbols = ("*") ∨ i.imported_symbols = (""))
    · rw [if_pos hc] at hcond
      cases hcond
      refine ⟨[i.file_path], rfl, List.nodup_singleton _, ?_, ?_, ?_, rfl, rfl, ?_, ?_⟩
      · intro c hcmem
        rw [List.mem_singleton] at hcmem
        subst hcmem
        exact List.mem_map_of_mem ImportRow.file_path hi
      · intro c hcmem
        rw [List.mem_singleton] at hcmem
        subst hcmem
        show strHasSub (i.file_path ++ ("<-") ++ target) i.file_path = true
        rw [String.append_assoc]
        exact strHasSub_self_append i.file_path (("<-") ++ target)
      · show strHasSub (i.file_path ++ ("<-") ++ target) target = true
        rw [String.append_assoc]
        exact strHasSub_append_left _ _ _
          (strHasSub_append_left _ _ _ (strHasSub_self target))
      · intro hn
        exact absurd rfl hn
      · rfl
    · rw [if_neg hc] at hcond
      cases hcond
  | succ n ih =>
    intro r hr
    simp only [iterRows, stepRows, List.mem_flatMap, List.mem_filterMap] at hr
    obtain ⟨dc, hdc, i, hi, hcond⟩ := hr
    by_cases hc : i.resolved_path = dc.consumer_path ∧ dc.depth < maxDepth ∧
        strHasSub dc.path_chain i.file_path = false
    · rw [if_pos hc] at hcond
      cases hcond
      obtain ⟨cs, hlen, hnd, hpaths, hsub, htgt, hdepth, hhead, _, hchain⟩ := ih dc hdc
      have hnotin : i.file_path ∉ cs := by
        intro hmem
        have := hsub i.file_path hmem
        rw [hc.2.2] at this
        cases this
      have hneq_tgt : i.file_path ≠ target := by
        intro heq
        rw [heq] at hc
        rw [htgt] at hc
        cases hc.2.2
      have hcs_ne : cs ≠ [] := by
        intro hnil
        rw [hnil] at hlen
        cases hlen
      refine ⟨i.file_path :: cs, by simp [hlen], List.nodup_cons.mpr ⟨hnotin, hnd⟩,
        ?_, ?_, ?_, ?_, rfl, ?_, ?_⟩
      · intro c hcmem
        rcases List.mem_cons.mp hcmem with hceq | hcs
        · subst hceq
          exact List.mem_map_of_mem ImportRow.file_path hi
        · exact hpaths c hcs
      · intro c hcmem
        rcases List.mem_cons.mp hcmem with hceq | hcs
        · subst hceq
          show strHasSub (i.file_path ++ ("<-") ++ dc.path_chain) i.file_path = true
          rw [String.append_assoc]
          exact strHasSub_self_append i.file_path (("<-") ++ dc.path_chain)
        · show strHasSub (i.file_path ++ ("<-") ++ dc.path_chain) c = true
          rw [String.append_assoc]
          exact strHasSub_append_left _ _ _
            (strHasSub_append_left _ _ _ (hsub c hcs))
      · show strHasSub (i.file_path ++ ("<-") ++ dc.path_chain) target = true
        rw [String.append_assoc]
        exact strHasSub_append_left _ _ _ (strHasSub_append_left _ _ _ htgt)
      · show (dc.depth + 1) = ((n : Int) + 1 + 1)
        rw [hdepth]
      · intro _
        exact hneq_tgt
      · show i.file_path ++ ("<-") ++ dc.path_chain = chainStr ((i.file_path :: cs) ++ [target])
        rw [hchain, List.cons_append, chainStr_cons, String.append_assoc]
        intro hnil
        cases cs with
        | nil => exact hcs_ne rfl
        | cons a l => cases hnil
    · rw [if_neg hc] at hcond
      cases hcond

/-- Levels at or beyond the number of import rows are empty: the recursive
CTE derives nothing past chains whose pairwise-distinct consumers exhaust
the import table.  This is the termination argument for the query. -/
theorem iterRows_eq_nil_of_le (db : Store) (target symName : String) (maxDepth : Int)
    {n : Nat} (hn : db.imports.length ≤ n) :
    iterRows db target symName maxDepth n = [] := by
  by_contra hne
  obtain ⟨r, hr⟩ := List.exists_mem_of_ne_nil _ hne
  obtain ⟨cs, hlen, hnd, hpaths, -, -, -, -, -, -⟩ :=
    rowOK_of_mem_iterRows db target symName maxDepth n r hr
  have hsub : cs.toFinset ⊆ (db.imports.map ImportRow.file_path).toFinset := by
    intro x hx
    rw [List.mem_toFinset] at *
    exact hpaths x hx
  have h1 : cs.toFinset.card = cs.length := List.toFinset_card_of_nodup hnd
  have h2 : (db.imports.map ImportRow.file_path).toFinset.card ≤
      (db.imports.map ImportRow.file_path).length := List.toFinset_card_le _
  have h3 := Finset.card_le_card hsub
  rw [h1, hlen, List.length_map] at *
  omega

/-- Membership in a stable insertion `insertLe` is membership in the inputs. -/
theorem mem_insertLe {α : Type} (le : α → α → Bool) (x a : α) (l : List α) :
    x ∈ insertLe le a l ↔ x = a ∨ x ∈ l := by
  induction l with
  | nil => simp [insertLe]
  | cons y ys ih =>
    by_cases h : le a y = true
    · simp [insertLe, h]
    · simp only [insertLe, if_neg h, List.mem_cons, ih]
      tauto

/-- Sorting with `sortWith` preserves membership. -/
theorem mem_sortWith {α : Type} (le : α → α → Bool) (x : α) (l : List α) :
    x ∈ sortWith le l ↔ x ∈ l := by
  induction l with
  | nil => simp [sortWith]
  | cons y ys ih =>
    show x ∈ insertLe le y (sortWith le ys) ↔ _
    rw [mem_insertLe, ih, List.mem_cons]

/-- Every row of the final impact result arises from some derivation level. -/
theorem mem_impactRows_elim (db : Store) (target symName : String) (maxDepth : Int)
    (r : ImpactRow) (hr : r ∈ impactRows db target symName maxDepth) :
    ∃ n c, c ∈ iterRows db target symName maxDepth n ∧ ChainRow.project c = r := by
  rw [impactRows, mem_sortWith, List.mem_dedup, List.mem_map] at hr
  obtain ⟨c, hc, hproj⟩ := hr
  rw [allChainRows, List.mem_flatMap] at hc
  obtain ⟨n, -, hcn⟩ := hc
  exact ⟨n, c, hcn, hproj⟩

/-- Every base-case row reaches the final impact result, whatever the depth
bound is: the bound guards only the recursive step. -/
theorem mem_impactRows_of_base (db : Store) (target symName : String) (maxDepth : Int)
    (r : ChainRow) (hr : r ∈ baseRows db target symName) :
    ChainRow.project r ∈ impactRows db target symName maxDepth := by
  have himports : db.imports ≠ [] := by
    rw [baseRows, List.mem_filterMap] at hr
    obtain ⟨i, hi, -⟩ := hr
    exact List.ne_nil_of_mem hi
  have hpos : 0 < db.imports.length := List.length_pos.mpr himports
  rw [impactRows, mem_sortWith, List.mem_dedup, List.mem_map]
  refine ⟨r, ?_, rfl⟩
  rw [allChainRows, List.mem_flatMap]
  exact ⟨0, List.mem_range.mpr hpos, hr⟩

/-- C1.  Transitive impact analysis is cycle-safe: (a) the recursive CTE
saturates — every derivation level at or past the number of import rows is
empty, so evaluation terminates on every stored import graph, cyclic ones
included; (b) the defining file itself is only ever reported at depth 1
(a direct self-import), never at depth ≥ 2 through a cycle back to itself;
(c) within one derived chain the consumer files are pairwise distinct
(a file can recur only across independent chains). -/
theorem impact_cycle_safety (db : Store) (target symName : String) (maxDepth : Int) :
    (∀ n, db.imports.length ≤ n → iterRows db target symName maxDepth n = []) ∧
    (∀ r ∈ impactRows db target symName maxDepth, r.consumer_path = target → r.depth = 1) ∧
    (∀ n, ∀ r ∈ iterRows db target symName maxDepth n,
      ∃ cs : List String, r.path_chain = chainStr (cs ++ [target]) ∧ cs.Nodup ∧
        cs.head? = some r.consumer_path ∧ r.depth = (cs.length : Int)) := by
  refine ⟨fun n hn => iterRows_eq_nil_of_le db target symName maxDepth hn, ?_, ?_⟩
  · intro r hr hc
    obtain ⟨n, c, hcn, hproj⟩ := mem_impactRows_elim db target symName maxDepth r hr
    obtain ⟨cs, -, -, -, -, -, hdepth, -, hne, -⟩ :=
      rowOK_of_mem_iterRows db target symName maxDepth n c hcn
    have hcons : c.consumer_path = target := by
      rw [← hproj] at hc
      exact hc
    have hn0 : n = 0 := by
      by_contra hne0
      exact hne hne0 hcons
    rw [← hproj]
    show c.depth = 1
    rw [hdepth, hn0]
    rfl
  · intro n r hr
    obtain ⟨cs, hlen, hnd, -, -, -, hdepth, hhead, -, hchain⟩ :=
      rowOK_of_mem_iterRows db target symName maxDepth n r hr
    exact ⟨cs, hchain, hnd, hhead, by rw [hdepth, hlen]; push_cast; ring⟩

/-- A store with a single self-import row, used to witness the cycle-safety
theorem at a concrete input. -/
def selfImportStore : Store :=
  { files := [("A.ts")]
    imports := [⟨("A.ts"), ("./A"), ("S"), ("A.ts")⟩]
    exports := [] }

theorem impact_cycle_safety_witness :
    iterRows selfImportStore ("A.ts") ("S") 5 2 = [] ∧
    (⟨("A.ts"), 1, ("A.ts"), ("S")⟩ : ImpactRow).depth = 1 ∧
    (∃ cs : List String,
      (⟨("A.ts"), ("./A"), ("S"), ("A.ts"), 1,
        ("A.ts") ++ ("<-") ++ ("A.ts")⟩ : ChainRow).path_chain =
        chainStr (cs ++ [("A.ts")]) ∧ cs.Nodup ∧
      cs.head? = some (("A.ts") : String) ∧ (1 : Int) = (cs.length : Int)) := by
  have h := impact_cycle_safety selfImportStore ("A.ts") ("S") 5
  refine ⟨h.1 2 (by decide), h.2.1 ⟨("A.ts"), 1, ("A.ts"), ("S")⟩ (by decide) rfl, ?_⟩
  have h3 := h.2.2 0 ⟨("A.ts"), ("./A"), ("S"), ("A.ts"), 1,
    ("A.ts") ++ ("<-") ++ ("A.ts")⟩ (by decide)
  exact h3

/- ### C10: the depth bound never suppresses the base case -/

/-- Depth normalization performed by `handleAnalyzeChangeImpact`
(`const depth = args?.depth ? Number(args.depth) : 3`): a missing argument
defaults to 3, and so does a supplied `0` (a JavaScript-falsy value). -/
def effectiveImpactDepth : Option Int → Int
  | none => 3
  | some d => if d = 0 then 3 else d

theorem stepRows_nil (db : Store) (maxDepth : Int) : stepRows db maxDepth [] = [] := rfl

theorem stepRows_eq_nil_of_depth (db : Store) (maxDepth : Int) (prev : List ChainRow)
    (h : ∀ dc ∈ prev, ¬(dc.depth < maxDepth)) : stepRows db maxDepth prev = [] := by
  rw [List.eq_nil_iff_forall_not_mem]
  intro r hr
  rw [stepRows, List.mem_flatMap] at hr
  obtain ⟨dc, hdc, hrr⟩ := hr
  rw [List.mem_filterMap] at hrr
  obtain ⟨i, -, hcond⟩ := hrr
  by_cases hc : i.resolved_path = dc.consumer_path ∧ dc.depth < maxDepth ∧
      strHasSub dc.path_chain i.file_path = false
  · exact h dc hdc hc.2.1
  · rw [if_neg hc] at hcond
    cases hcond

theorem baseRows_depth (db : Store) (target symName : String)
    (r : ChainRow) (hr : r ∈ baseRows db target symName) : r.depth = 1 := by
  rw [baseRows, List.mem_filterMap] at hr
  obtain ⟨i, -, hcond⟩ := hr
  by_cases hc : i.resolved_path = target ∧ target ∈ db.files ∧
      (likeContainsName i.imported_symbols symName ∨
       i.imported_symbols = ("*") ∨ i.imported_symbols = (""))
  · rw [if_pos hc] at hcond
    cases hcond
    rfl
  · rw [if_neg hc] at hcond
    cases hcond

theorem iterRows_succ_eq_nil_of_le_one (db : Store) (target symName : String)
    {maxDepth : Int} (hd : maxDepth ≤ 1) :
    ∀ n, iterRows db target symName maxDepth (n + 1) = [] := by
  intro n
  induction n with
  | zero =>
    show stepRows db maxDepth (baseRows db target symName) = []
    refine stepRows_eq_nil_of_depth db maxDepth _ (fun dc hdc hlt => ?_)
    rw [baseRows_depth db target symName dc hdc] at hlt
    omega
  | succ m ih =>
    show stepRows db maxDepth (iterRows db target symName maxDepth (m + 1)) = []
    rw [ih]
    rfl

/-- C10.  The depth bound guards only the recursive step of the impact
query, never the base case: (a) for every depth bound — zero and negative
bounds included — every depth-1 direct consumer row is in the final result;
(b) with a bound of at most 1 the result is exactly the deduplicated,
sorted projection of the base case; (c) at the handler level the
JavaScript-falsy depth argument 0 is normalized to the default bound 3. -/
theorem impact_depth_guard (db : Store) (target symName : String) (maxDepth : Int) :
    (∀ r ∈ baseRows db target symName,
      ChainRow.project r ∈ impactRows db target symName maxDepth) ∧
    (maxDepth ≤ 1 → impactRows db target symName maxDepth =
      sortWith impactLe ((baseRows db target symName).map ChainRow.project).dedup) ∧
    effectiveImpactDepth (some 0) = 3 := by
  refine ⟨fun r hr => mem_impactRows_of_base db target symName maxDepth r hr, ?_, rfl⟩
  intro hd
  rw [impactRows]
  have hall : allChainRows db target symName maxDepth = baseRows db target symName := by
    rw [allChainRows]
    cases hlen : db.imports.length with
    | zero =>
      have : db.imports = [] := List.length_eq_zero.mp hlen
      simp [baseRows, this]
    | succ m =>
      rw [List.range_succ_eq_map, List.flatMap_cons]
      have htail : (List.map Nat.succ (List.range m)).flatMap
          (iterRows db target symName maxDepth) = [] := by
        rw [List.flatMap_eq_nil_iff]
        intro n hn
        rw [List.mem_map] at hn
        obtain ⟨k, -, hk⟩ := hn
        rw [← hk]
        exact iterRows_succ_eq_nil_of_le_one db target symName hd k
      rw [htail]
      simp [iterRows]
  rw [hall]

/- ### C2: the three-file impact scenario

`analyzeChangeImpact` embeds `handleAnalyzeChangeImpact` (dependency/impact
handler): find the rows of `exports` named `symName` (optionally restricted
to a hinted file), fail with an error result (`none`) when there are none,
and otherwise run the impact query once per defining file with the
normalized depth bound. -/

def analyzeChangeImpact (db : Store) (symName : String) (hint : Option String)
    (depthArg : Option Int) : Option (List (String × List ImpactRow)) :=
  let defs := db.exports.filter (fun e =>
    decide (e.name = symName) && db.files.contains e.file_path &&
    (match hint with | some f => decide (e.file_path = f) | none => true))
  if defs.isEmpty then none
  else some (defs.map (fun e =>
    (e.file_path, impactRows db e.file_path symName (effectiveImpactDepth depthArg))))

/-- The scenario store of the spec's impact test: `F` defines `S`; `B`
 imports `S` from `F` with imported-name list `symsB`; `C` imports
everything from `B` (wildcard list). -/
def threeFileStore (F B C S symsB : String) : Store :=
  { files := [F, B, C]
    imports := [⟨B, ("./F"), symsB, F⟩, ⟨C, ("./B"), ("*"), B⟩]
    exports := [⟨1, F, S, ("FunctionDeclaration"), (""), (""), 1, 2, ("Other"), ("[]"), none⟩] }

theorem impact_scenario_base
    (F B C S symsB : String)
    (hFB : F ≠ B)
    (hSym : likeContainsName symsB S = true ∨ symsB = ("*") ∨ symsB = ("")) :
    baseRows (threeFileStore F B C S symsB) F S =
      [⟨B, ("./F"), symsB, F, 1, B ++ ("<-") ++ F⟩] := by
  have hc1 : True ∧ F ∈ [F, B, C] ∧
      (likeContainsName symsB S = true ∨ symsB = ("*") ∨ symsB = ("")) :=
    ⟨trivial, List.mem_cons_self F [B, C], hSym⟩
  have hc2 : ¬(B = F ∧ F ∈ [F, B, C] ∧
      (likeContainsName ("*") S = true ∨ True ∨ ("*" : String) = (""))) :=
    fun hc => hFB hc.1.symm
  simp only [baseRows, threeFileStore, List.filterMap_cons, List.filterMap_nil]
  rw [if_pos hc1, if_neg hc2]

theorem impact_scenario_step
    (F B C S symsB : String)
    (hFB : F ≠ B)
    (hChain : strHasSub (B ++ ("<-") ++ F) C = false) :
    stepRows (threeFileStore F B C S symsB) 2
        [⟨B, ("./F"), symsB, F, 1, B ++ ("<-") ++ F⟩] =
      [⟨C, ("./B"), ("*"), B, 2, C ++ ("<-") ++ (B ++ ("<-") ++ F)⟩] := by
  simp only [stepRows, List.flatMap_cons, List.flatMap_nil, List.filterMap_cons,
    List.filterMap_nil, threeFileStore]
  rw [if_neg (fun hc => hFB hc.1), if_pos ⟨trivial, by decide, hChain⟩]
  simp

theorem impact_scenario_query
    (F B C S symsB : String)
    (hFB : F ≠ B) (hBC : B ≠ C)
    (hSym : likeContainsName symsB S = true ∨ symsB = ("*") ∨ symsB = (""))
    (hChain : strHasSub (B ++ ("<-") ++ F) C = false) :
    impactRows (threeFileStore F B C S symsB) F S 2 =
      [⟨B, 1, F, symsB⟩, ⟨C, 2, B, ("*")⟩] ∧
    impactRows (threeFileStore F B C S symsB) F S 1 = [⟨B, 1, F, symsB⟩] := by
  have hlen : (threeFileStore F B C S symsB).imports.length = 2 := rfl
  have hb2 : baseRows (threeFileStore F B C S symsB) F S =
      [⟨B, ("./F"), symsB, F, 1, B ++ ("<-") ++ F⟩] :=
    impact_scenario_base F B C S symsB hFB hSym
  constructor
  · have h0 : iterRows (threeFileStore F B C S symsB) F S 2 0 =
        [⟨B, ("./F"), symsB, F, 1, B ++ ("<-") ++ F⟩] := hb2
    have h1 : iterRows (threeFileStore F B C S symsB) F S 2 1 =
        [⟨C, ("./B"), ("*"), B, 2, C ++ ("<-") ++ (B ++ ("<-") ++ F)⟩] := by
      show stepRows _ 2 (iterRows (threeFileStore F B C S symsB) F S 2 0) = _
      rw [h0]
      exact impact_scenario_step F B C S symsB hFB hChain
    have hall : allChainRows (threeFileStore F B C S symsB) F S 2 =
        [⟨B, ("./F"), symsB, F, 1, B ++ ("<-") ++ F⟩,
         ⟨C, ("./B"), ("*"), B, 2, C ++ ("<-") ++ (B ++ ("<-") ++ F)⟩] := by
      rw [allChainRows, hlen]
      show (iterRows (threeFileStore F B C S symsB) F S 2 0) ++
        ((iterRows (threeFileStore F B C S symsB) F S 2 1) ++ []) = _
      rw [h0, h1]
      rfl
    rw [impactRows, hall]
    have hne : (⟨B, 1, F, symsB⟩ : ImpactRow) ≠ ⟨C, 2, B, ("*")⟩ := by
      intro h
      cases h
    simp only [List.map_cons, List.map_nil, ChainRow.project]
    rw [List.dedup_cons_of_not_mem (by simp [hne]), List.dedup_cons_of_not_mem (by simp),
      List.dedup_nil]
    simp [sortWith, insertLe, impactLe]
  · have h0 : iterRows (threeFileStore F B C S symsB) F S 1 0 =
        [⟨B, ("./F"), symsB, F, 1, B ++ ("<-") ++ F⟩] := hb2
    have h1 : iterRows (threeFileStore F B C S symsB) F S 1 1 = [] := by
      show stepRows _ 1 (iterRows (threeFileStore F B C S symsB) F S 1 0) = _
      rw [h0]
      refine stepRows_eq_nil_of_depth _ 1 _ (fun dc hdc hlt => ?_)
      rw [List.mem_singleton] at hdc
      subst hdc
      have hlt2 : (1 : Int) < 1 := hlt
      exact absurd hlt2 (by decide)
    have hall : allChainRows (threeFileStore F B C S symsB) F S 1 =
        [⟨B, ("./F"), symsB, F, 1, B ++ ("<-") ++ F⟩] := by
      rw [allChainRows, hlen]
      show (iterRows (threeFileStore F B C S symsB) F S 1 0) ++
        ((iterRows (threeFileStore F B C S symsB) F S 1 1) ++ []) = _
      rw [h0, h1]
      rfl
    rw [impactRows, hall]
    simp [sortWith, insertLe, ChainRow.project, List.dedup]

/-- C2.  In the scenario store — `F` defines `S`; `B` imports from `F`
with an imported-name list containing `S` (or blank, or a wildcard); `C`
 imports everything from `B` — impact analysis with depth 2 returns exactly
`B` at depth 1 and `C` at depth 2, with depth 1 it returns only `B`, and
the handler reports the same rows for the definition found in `F`. -/
theorem impact_three_file_scenario
    (F B C S symsB : String)
    (hFB : F ≠ B) (hBC : B ≠ C)
    (hSym : likeContainsName symsB S = true ∨ symsB = ("*") ∨ symsB = (""))
    (hChain : strHasSub (B ++ ("<-") ++ F) C = false) :
    impactRows (threeFileStore F B C S symsB) F S 2 =
      [⟨B, 1, F, symsB⟩, ⟨C, 2, B, ("*")⟩] ∧
    impactRows (threeFileStore F B C S symsB) F S 1 = [⟨B, 1, F, symsB⟩] ∧
    analyzeChangeImpact (threeFileStore F B C S symsB) S none (some 2) =
      some [(F, [⟨B, 1, F, symsB⟩, ⟨C, 2, B, ("*")⟩])] ∧
    analyzeChangeImpact (threeFileStore F B C S symsB) S none (some 1) =
      some [(F, [⟨B, 1, F, symsB⟩])] := by
  have h := impact_scenario_query F B C S symsB hFB hBC hSym hChain
  have hexp : (threeFileStore F B C S symsB).exports =
      [⟨1, F, S, ("FunctionDeclaration"), (""), (""), 1, 2, ("Other"), ("[]"), none⟩] := rfl
  have hfiles : (threeFileStore F B C S symsB).files = [F, B, C] := rfl
  refine ⟨h.1, h.2, ?_, ?_⟩
  · simp only [analyzeChangeImpact, hexp, hfiles, List.filter, List.contains,
      effectiveImpactDepth]
    simp [h.1]
  · simp only [analyzeChangeImpact, hexp, hfiles, List.filter, List.contains,
      effectiveImpactDepth]
    simp [h.2]

theorem impact_three_file_scenario_witness :
    impactRows (threeFileStore ("core.ts") ("b.ts") ("c.ts") ("S") ("S")) ("core.ts") ("S") 2 =
      [⟨("b.ts"), 1, ("core.ts"), ("S")⟩, ⟨("c.ts"), 2, ("b.ts"), ("*")⟩] ∧
    impactRows (threeFileStore ("core.ts") ("b.ts") ("c.ts") ("S") ("S")) ("core.ts") ("S") 1 =
      [⟨("b.ts"), 1, ("core.ts"), ("S")⟩] ∧
    analyzeChangeImpact (threeFileStore ("core.ts") ("b.ts") ("c.ts") ("S") ("S")) ("S")
        none (some 2) =
      some [(("core.ts"), [⟨("b.ts"), 1, ("core.ts"), ("S")⟩, ⟨("c.ts"), 2, ("b.ts"), ("*")⟩])] ∧
    analyzeChangeImpact (threeFileStore ("core.ts") ("b.ts") ("c.ts") ("S") ("S")) ("S")
        none (some 1) =
      some [(("core.ts"), [⟨("b.ts"), 1, ("core.ts"), ("S")⟩])] :=
  impact_three_file_scenario ("core.ts") ("b.ts") ("c.ts") ("S") ("S")
    (by decide) (by decide) (Or.inl (by decide)) (by decide)

theorem impact_depth_guard_witness :
    ChainRow.project ⟨("A.ts"), ("./A"), ("S"), ("A.ts"), 1,
        ("A.ts") ++ ("<-") ++ ("A.ts")⟩ ∈ impactRows selfImportStore ("A.ts") ("S") 0 ∧
    impactRows selfImportStore ("A.ts") ("S") 0 =
      sortWith impactLe ((baseRows selfImportStore ("A.ts") ("S")).map ChainRow.project).dedup := by
  have h := impact_depth_guard selfImportStore ("A.ts") ("S") 0
  exact ⟨h.1 ⟨("A.ts"), ("./A"), ("S"), ("A.ts"), 1,
    ("A.ts") ++ ("<-") ++ ("A.ts")⟩ (by decide), h.2.1 (by decide)⟩

/- ### Symbol lookup embeddings (src/mcp/handlers/symbols.ts)

`readSymbolQuery` embeds the search query of `handleReadSymbol`: name (or
`Parent.Member`) match over `exports` joined with `files` and left-joined
with the parent row, ranked with top-level rows first and re-export rows
last (`ORDER BY CASE WHEN parent_id IS NULL THEN 0 ELSE 1 END, CASE WHEN
kind = 'ExportSpecifier' THEN 2 ELSE 0 END LIMIT 10`). -/

def parentOf (db : Store) (e : ExportRow) : Option ExportRow :=
  e.parent_id.bind (fun pid => db.exports.find? (fun p => p.id == pid))

def readKey1 (e : ExportRow) : Nat := if e.parent_id = none then 0 else 1

def readKey2 (e : ExportRow) : Nat := if e.kind = ("ExportSpecifier") then 2 else 0

def readSymbolLe (a b : ExportRow) : Bool :=
  readKey1 a < readKey1 b || (readKey1 a = readKey1 b && readKey2 a ≤ readKey2 b)

def readSymbolQuery (db : Store) (symbolName : String) (hint : Option String) :
    List ExportRow :=
  let rows := db.exports.filter (fun e =>
    (if symbolName.data.contains ('.') then
      (let parts := symbolName.splitOn (".")
       match parentOf db e with
       | some p => decide (p.name = parts.getD 0 ("")) && decide (e.name = parts.getD 1 (""))
       | none => false)
    else decide (e.name = symbolName)) &&
    db.files.contains e.file_path &&
    (match hint with | some f => decide (e.file_path = f) | none => true))
  (sortWith readSymbolLe rows).take 10

/-- Result of a `read_symbol` lookup.  The source may attach fuzzy
suggestions from the full-text shadow index to a miss; that presentation
detail is collapsed into `notFound` here. -/
inductive ReadResult where
  | notFound : ReadResult
  | found (e : ExportRow) : ReadResult
deriving DecidableEq, Repr

/-- Embedding of `handleReadSymbol` including its de-barrelling
auto-resolution: when the top-ranked match is a re-export record
(`ExportSpecifier` or `ExportAllDeclaration`) and an import edge of the
re-exporting file mentions the symbol (or is a wildcard) and resolves,
the handler calls itself again with the resolved file as the hint.  The
source recursion carries no visited set and no depth bound, so the
embedding is indexed by fuel; `none` means the fuel bound was exhausted. -/
def readSymbol (db : Store) (symbolName : String) : Nat → Option String → Option ReadResult
  | 0, _ => none
  | fuel + 1, hint =>
    match readSymbolQuery db symbolName hint with
    | [] => some ReadResult.notFound
    | result :: _ =>
      if result.kind = ("ExportSpecifier") ∨ result.kind = ("ExportAllDeclaration") then
        match db.imports.find? (fun i =>
          i.file_path == result.file_path &&
          (likeContainsName i.imported_symbols symbolName || i.imported_symbols == ("*"))) with
        | some isrc =>
          if isrc.resolved_path ≠ ("") then
            readSymbol db symbolName fuel (some isrc.resolved_path)
          else some (ReadResult.found result)
        | none => some (ReadResult.found result)
      else some (ReadResult.found result)

/- `handleGetSymbolDefinition` (and the per-symbol query of
`handleGetSymbolsBatch`): name match ranked with re-export rows last and
longer spans first (`ORDER BY CASE WHEN kind = 'ExportSpecifier' THEN 1
ELSE 0 END, (end_line - start_line) DESC`). -/

def defKey (e : ExportRow) : Nat := if e.kind = ("ExportSpecifier") then 1 else 0

def defLookupLe (a b : ExportRow) : Bool :=
  defKey a < defKey b || (defKey a = defKey b && b.end_line - b.start_line ≤ a.end_line - a.start_line)

def defLookupMatches (db : Store) (symbolName : String) (hint : Option String) :
    List ExportRow :=
  db.exports.filter (fun e =>
    decide (e.name = symbolName) && db.files.contains e.file_path &&
    (match hint with | some f => decide (e.file_path = f) | none => true))

inductive DefResult where
  | notFound : DefResult
  | ambiguous (cands : List ExportRow) : DefResult
  | found (e : ExportRow) : DefResult
deriving DecidableEq, Repr

/-- Embedding of `handleGetSymbolDefinition`: on a miss report not-found;
when more than one non-re-export implementation matches and no file hint
was supplied, return the candidate list; otherwise return the top-ranked
row (query capped at `LIMIT 10`). -/
def getSymbolDefinition (db : Store) (symbolName : String) (hint : Option String) :
    DefResult :=
  match (sortWith defLookupLe (defLookupMatches db symbolName hint)).take 10 with
  | [] => DefResult.notFound
  | r :: rest =>
    let impls := (r :: rest).filter (fun e => !(e.kind == ("ExportSpecifier")))
    if 1 < impls.length ∧ hint = none then DefResult.ambiguous impls
    else DefResult.found r

/-- Embedding of the per-symbol query of `handleGetSymbolsBatch`: the same
ranked query with `LIMIT 1` (`.get`), so exactly the top-ranked row is
taken and no ambiguity check ever runs. -/
def batchLookupOne (db : Store) (symbolName : String) (hint : Option String) :
    Option ExportRow :=
  (sortWith defLookupLe (defLookupMatches db symbolName hint)).head?

/- ### Proxy-set discovery (usage discovery, `handleReadSymbol` full mode)

The source collects every file that transitively re-exports the defining
file with an explicit worklist (`proxies` set plus `currentLevel` array).
The embedding makes the loop fuel-indexed; fuel `db.imports.length + 2`
suffices and extra fuel never changes the answer (proved below). -/

/-- One inner query of the worklist loop: files that import `p` and also
own a re-export row (`ExportAllDeclaration` or `ExportMapping`). -/
def proxyStepQuery (db : Store) (p : String) : List String :=
  db.imports.flatMap (fun i =>
    db.exports.filterMap (fun e =>
      if i.file_path = e.file_path ∧ i.resolved_path = p ∧
          (e.kind = ("ExportAllDeclaration") ∨ e.kind = ("ExportMapping")) then
        some i.file_path
      else none))

/-- The body of `if (!proxies.has(r.file_path)) { proxies.add(...);
nextLevel.push(...) }`. -/
def proxyInsert (st : List String × List String) (f : String) : List String × List String :=
  if f ∈ st.1 then st else (st.1 ++ [f], st.2 ++ [f])

/-- One pass of the while-loop over the current level. -/
def proxyBodyStep (db : Store) (proxies current : List String) :
    List String × List String :=
  current.foldl (fun st p => (proxyStepQuery db p).foldl proxyInsert st) (proxies, [])

def proxyLoop (db : Store) : Nat → List String → List String → List String
  | 0, proxies, _ => proxies
  | fuel + 1, proxies, current =>
    if current.isEmpty then proxies
    else
      let st := proxyBodyStep db proxies current
      proxyLoop db fuel st.1 st.2

/-- The proxy set of a defining file: the worklist loop seeded with the
file itself. -/
def proxySet (db : Store) (start : String) : List String :=
  proxyLoop db (db.imports.length + 2) [start] [start]

/- ### Shared counting lemma: a duplicate-free list drawn from a universe
is no longer than the universe. -/

theorem nodup_subset_length {α : Type} [DecidableEq α] {l u : List α}
    (hnd : l.Nodup) (hsub : ∀ x ∈ l, x ∈ u) : l.length ≤ u.length := by
  have h1 : l.toFinset.card = l.length := List.toFinset_card_of_nodup hnd
  have h2 : l.toFinset ⊆ u.toFinset := by
    intro x hx
    rw [List.mem_toFinset] at *
    exact hsub x hx
  have h3 := Finset.card_le_card h2
  have h4 : u.toFinset.card ≤ u.length := List.toFinset_card_le u
  omega

/- ### Structure of the proxy worklist loop -/

theorem mem_proxyStepQuery (db : Store) (p x : String)
    (hx : x ∈ proxyStepQuery db p) : x ∈ db.imports.map ImportRow.file_path := by
  rw [proxyStepQuery, List.mem_flatMap] at hx
  obtain ⟨i, hi, hxi⟩ := hx
  rw [List.mem_filterMap] at hxi
  obtain ⟨e, -, hcond⟩ := hxi
  by_cases hc : i.file_path = e.file_path ∧ i.resolved_path = p ∧
      (e.kind = ("ExportAllDeclaration") ∨ e.kind = ("ExportMapping"))
  · rw [if_pos hc] at hcond
    cases hcond
    exact List.mem_map_of_mem ImportRow.file_path hi
  · rw [if_neg hc] at hcond
    cases hcond

theorem proxyInsert_fold (l : List String) : ∀ p n : List String,
    ∃ fresh : List String,
      l.foldl proxyInsert (p, n) = (p ++ fresh, n ++ fresh) ∧
      (∀ x ∈ fresh, x ∈ l) ∧ (∀ x ∈ fresh, x ∉ p) ∧
      (p.Nodup → (p ++ fresh).Nodup) := by
  induction l with
  | nil =>
    intro p n
    exact ⟨[], by simp, by simp, by simp, fun h => by simpa using h⟩
  | cons a l ih =>
    intro p n
    rw [List.foldl_cons]
    by_cases ha : a ∈ p
    · rw [show proxyInsert (p, n) a = (p, n) from if_pos ha]
      obtain ⟨fresh, heq, hmem, hnotin, hnd⟩ := ih p n
      exact ⟨fresh, heq, fun x hx => List.mem_cons_of_mem a (hmem x hx), hnotin, hnd⟩
    · rw [show proxyInsert (p, n) a = (p ++ [a], n ++ [a]) from if_neg ha]
      obtain ⟨fresh, heq, hmem, hnotin, hnd⟩ := ih (p ++ [a]) (n ++ [a])
      refine ⟨a :: fresh, ?_, ?_, ?_, ?_⟩
      · rw [heq]
        simp
      · intro x hx
        rcases List.mem_cons.mp hx with hxa | hxf
        · subst hxa
          exact List.mem_cons_self x l
        · exact List.mem_cons_of_mem a (hmem x hxf)
      · intro x hx
        rcases List.mem_cons.mp hx with hxa | hxf
        · subst hxa
          exact ha
        · intro hxp
          exact hnotin x hxf (List.mem_append_left [a] hxp)
      · intro hpnd
        have hpa : (p ++ [a]).Nodup := by
          have hperm : (p ++ [a]).Perm (a :: p) := List.perm_append_singleton a p
          rw [hperm.nodup_iff]
          exact List.nodup_cons.mpr ⟨ha, hpnd⟩
        have := hnd hpa
        rwa [List.append_assoc] at this

theorem proxyBody_fold (db : Store) : ∀ c p n : List String,
    ∃ fresh : List String,
      c.foldl (fun st q => (proxyStepQuery db q).foldl proxyInsert st) (p, n) =
        (p ++ fresh, n ++ fresh) ∧
      (∀ x ∈ fresh, x ∈ db.imports.map ImportRow.file_path) ∧
      (∀ x ∈ fresh, x ∉ p) ∧
      (p.Nodup → (p ++ fresh).Nodup) := by
  intro c
  induction c with
  | nil =>
    intro p n
    exact ⟨[], by simp, by simp, by simp, fun h => by simpa using h⟩
  | cons q c ih =>
    intro p n
    obtain ⟨f1, heq1, hmem1, hnotin1, hnd1⟩ := proxyInsert_fold (proxyStepQuery db q) p n
    obtain ⟨f2, heq2, hmem2, hnotin2, hnd2⟩ := ih (p ++ f1) (n ++ f1)
    refine ⟨f1 ++ f2, ?_, ?_, ?_, ?_⟩
    · rw [List.foldl_cons, heq1, heq2]
      simp [List.append_assoc]
    · intro x hx
      rcases List.mem_append.mp hx with hx1 | hx2
      · exact mem_proxyStepQuery db q x (hmem1 x hx1)
      · exact hmem2 x hx2
    · intro x hx
      rcases List.mem_append.mp hx with hx1 | hx2
      · exact hnotin1 x hx1
      · intro hxp
        exact hnotin2 x hx2 (List.mem_append_left f1 hxp)
    · intro hpnd
      have := hnd2 (hnd1 hpnd)
      rwa [List.append_assoc] at this

theorem proxyBodyStep_spec (db : Store) (p c : List String) :
    ∃ fresh : List String,
      proxyBodyStep db p c = (p ++ fresh, fresh) ∧
      (∀ x ∈ fresh, x ∈ db.imports.map ImportRow.file_path) ∧
      (∀ x ∈ fresh, x ∉ p) ∧
      (p.Nodup → (p ++ fresh).Nodup) := by
  obtain ⟨fresh, heq, hmem, hnotin, hnd⟩ := proxyBody_fold db c p []
  exact ⟨fresh, by rw [proxyBodyStep, heq]; simp, hmem, hnotin, hnd⟩

theorem proxyLoop_nil_current (db : Store) : ∀ n p, proxyLoop db n p [] = p := by
  intro n p
  cases n with
  | zero => rfl
  | succ m => rfl

theorem proxyLoop_succ (db : Store) (fuel : Nat) (p c : List String) :
    proxyLoop db (fuel + 1) p c =
      if c.isEmpty then p
      else proxyLoop db fuel (proxyBodyStep db p c).1 (proxyBodyStep db p c).2 := by
  rw [proxyLoop]

theorem proxyLoop_stable_aux (db : Store) (univ : List String)
    (huniv : ∀ x ∈ db.imports.map ImportRow.file_path, x ∈ univ) :
    ∀ k p c, p.Nodup → (∀ x ∈ p, x ∈ univ) → univ.length ≤ p.length + k →
      ∀ m, proxyLoop db (k + 1 + m) p c = proxyLoop db (k + 1) p c := by
  intro k
  induction k with
  | zero =>
    intro p c hnd hsub hlen m
    obtain ⟨fresh, heq, hmem, hnotin, hndp⟩ := proxyBodyStep_spec db p c
    have hfresh_nil : fresh = [] := by
      cases hf : fresh with
      | nil => rfl
      | cons x rest =>
        exfalso
        have hx_univ : x ∈ univ := huniv x (hmem x (by rw [hf]; exact List.mem_cons_self x rest))
        have hx_notp : x ∉ p := hnotin x (by rw [hf]; exact List.mem_cons_self x rest)
        have hpx_nd : (p ++ [x]).Nodup := by
          have h1 := hndp hnd
          rw [hf] at h1
          have hsl : (p ++ [x]).Sublist (p ++ x :: rest) :=
            List.Sublist.append_left (by simp) p
          exact hsl.nodup h1
        have hpx_sub : ∀ y ∈ p ++ [x], y ∈ univ := by
          intro y hy
          rcases List.mem_append.mp hy with hyp | hyx
          · exact hsub y hyp
          · rw [List.mem_singleton] at hyx
            subst hyx
            exact hx_univ
        have := nodup_subset_length hpx_nd hpx_sub
        simp at this
        omega
    rw [hfresh_nil] at heq
    simp only [List.append_nil] at heq
    cases hc : c.isEmpty with
    | true =>
      have hcnil : c = [] := List.isEmpty_iff.mp hc
      subst hcnil
      rw [proxyLoop_nil_current, proxyLoop_nil_current]
    | false =>
      have h1 : proxyLoop db (0 + 1 + m) p c =
          proxyLoop db m (proxyBodyStep db p c).1 (proxyBodyStep db p c).2 := by
        have hn : 0 + 1 + m = m + 1 := by omega
        rw [hn, proxyLoop_succ, if_neg (by rw [hc]; exact Bool.false_ne_true)]
      have h2 : proxyLoop db (0 + 1) p c =
          proxyLoop db 0 (proxyBodyStep db p c).1 (proxyBodyStep db p c).2 := by
        rw [proxyLoop_succ, if_neg (by rw [hc]; exact Bool.false_ne_true)]
      rw [h1, h2]
      simp only [heq]
      rw [proxyLoop_nil_current]
      rfl
  | succ k ih =>
    intro p c hnd hsub hlen m
    cases hc : c.isEmpty with
    | true =>
      have hcnil : c = [] := List.isEmpty_iff.mp hc
      subst hcnil
      rw [proxyLoop_nil_current, proxyLoop_nil_current]
    | false =>
      obtain ⟨fresh, heq, hmem, hnotin, hndp⟩ := proxyBodyStep_spec db p c
      have h1 : proxyLoop db (k + 1 + 1 + m) p c =
          proxyLoop db (k + 1 + m) (p ++ fresh) fresh := by
        have hn : k + 1 + 1 + m = (k + 1 + m) + 1 := by omega
        rw [hn, proxyLoop_succ, if_neg (by rw [hc]; exact Bool.false_ne_true), heq]
      have h2 : proxyLoop db (k + 1 + 1) p c =
          proxyLoop db (k + 1) (p ++ fresh) fresh := by
        rw [proxyLoop_succ, if_neg (by rw [hc]; exact Bool.false_ne_true), heq]
      cases hf : fresh with
      | nil =>
        rw [h1, h2, hf, proxyLoop_nil_current, proxyLoop_nil_current]
      | cons x rest =>
        have hnd' : (p ++ fresh).Nodup := hndp hnd
        have hsub' : ∀ y ∈ p ++ fresh, y ∈ univ := by
          intro y hy
          rcases List.mem_append.mp hy with hyp | hyf
          · exact hsub y hyp
          · exact huniv y (hmem y hyf)
        have hlen' : univ.length ≤ (p ++ fresh).length + k := by
          rw [List.length_append, hf]
          simp only [List.length_cons]
          omega
        rw [h1, h2]
        exact ih (p ++ fresh) fresh hnd' hsub' hlen' m

/-- The proxy worklist loop is insensitive to extra fuel past
`db.imports.length + 2`: the traversal exhausts its worklist within the
bound on every store, cyclic re-export graphs included. -/
theorem proxyLoop_terminates (db : Store) (start : String) {n : Nat}
    (hn : db.imports.length + 2 ≤ n) :
    proxyLoop db n [start] [start] = proxySet db start := by
  obtain ⟨m, hm⟩ : ∃ m, n = (db.imports.length + 1) + 1 + m := by
    refine ⟨n - (db.imports.length + 2), ?_⟩
    omega
  subst hm
  rw [proxySet]
  have huniv : ∀ x ∈ db.imports.map ImportRow.file_path,
      x ∈ start :: db.imports.map ImportRow.file_path :=
    fun x hx => List.mem_cons_of_mem start hx
  have h := proxyLoop_stable_aux db (start :: db.imports.map ImportRow.file_path) huniv
    (db.imports.length + 1) [start] [start] (List.nodup_singleton start)
    (fun x hx => by rw [List.mem_singleton] at hx; rw [hx]; exact List.mem_cons_self _ _)
    (by simp)
  exact h m

/- ### C9: cyclic barrel pair for the de-barrelling follow -/

/-- A store in which `A.ts` and `B.ts` each hold only a re-export record
for `S` and an import edge resolving to the other file: an adversarial
cyclic barrel pair. -/
def cycStore : Store :=
  { files := [("A.ts"), ("B.ts")]
    imports := [⟨("A.ts"), ("./B"), ("S"), ("B.ts")⟩, ⟨("B.ts"), ("./A"), ("S"), ("A.ts")⟩]
    exports := [⟨1, ("A.ts"), ("S"), ("ExportSpecifier"), (""), (""), 1, 1, ("Other"), ("[]"), none⟩,
                ⟨2, ("B.ts"), ("S"), ("ExportSpecifier"), (""), (""), 1, 1, ("Other"), ("[]"), none⟩] }

theorem cyc_step_A : ∀ fuel, readSymbol cycStore ("S") (fuel + 1) (some ("A.ts")) =
    readSymbol cycStore ("S") fuel (some ("B.ts")) := by
  intro fuel
  rw [readSymbol]
  rw [show readSymbolQuery cycStore ("S") (some ("A.ts")) =
    [⟨1, ("A.ts"), ("S"), ("ExportSpecifier"), (""), (""), 1, 1, ("Other"), ("[]"), none⟩]
    from by decide]
  simp only []
  rw [show List.find? (fun i =>
      i.file_path == ("A.ts") &&
      (likeContainsName i.imported_symbols ("S") || i.imported_symbols == ("*")))
      cycStore.imports =
    some ⟨("A.ts"), ("./B"), ("S"), ("B.ts")⟩ from by decide]
  simp

theorem cyc_step_B : ∀ fuel, readSymbol cycStore ("S") (fuel + 1) (some ("B.ts")) =
    readSymbol cycStore ("S") fuel (some ("A.ts")) := by
  intro fuel
  rw [readSymbol]
  rw [show readSymbolQuery cycStore ("S") (some ("B.ts")) =
    [⟨2, ("B.ts"), ("S"), ("ExportSpecifier"), (""), (""), 1, 1, ("Other"), ("[]"), none⟩]
    from by decide]
  simp only []
  rw [show List.find? (fun i =>
      i.file_path == ("B.ts") &&
      (likeContainsName i.imported_symbols ("S") || i.imported_symbols == ("*")))
      cycStore.imports =
    some ⟨("B.ts"), ("./A"), ("S"), ("A.ts")⟩ from by decide]
  simp

theorem cyc_step_none : ∀ fuel, readSymbol cycStore ("S") (fuel + 1) none =
    readSymbol cycStore ("S") fuel (some ("B.ts")) := by
  intro fuel
  rw [readSymbol]
  rw [show readSymbolQuery cycStore ("S") none =
    [⟨1, ("A.ts"), ("S"), ("ExportSpecifier"), (""), (""), 1, 1, ("Other"), ("[]"), none⟩,
     ⟨2, ("B.ts"), ("S"), ("ExportSpecifier"), (""), (""), 1, 1, ("Other"), ("[]"), none⟩]
    from by decide]
  simp only []
  rw [show List.find? (fun i =>
      i.file_path == ("A.ts") &&
      (likeContainsName i.imported_symbols ("S") || i.imported_symbols == ("*")))
      cycStore.imports =
    some ⟨("A.ts"), ("./B"), ("S"), ("B.ts")⟩ from by decide]
  simp

theorem readSymbol_cyc_hints : ∀ fuel,
    readSymbol cycStore ("S") fuel (some ("A.ts")) = none ∧
    readSymbol cycStore ("S") fuel (some ("B.ts")) = none := by
  intro fuel
  induction fuel with
  | zero => exact ⟨rfl, rfl⟩
  | succ n ih =>
    refine ⟨?_, ?_⟩
    · rw [cyc_step_A]
      exact ih.2
    · rw [cyc_step_B]
      exact ih.1

/-- On the cyclic barrel pair the de-barrelling recursion exhausts every
fuel bound: the source recursion never returns. -/
theorem readSymbol_cyc_diverges : ∀ fuel, readSymbol cycStore ("S") fuel none = none := by
  intro fuel
  cases fuel with
  | zero => rfl
  | succ n =>
    rw [cyc_step_none]
    exact (readSymbol_cyc_hints n).2

/-- C9 (counterexample).  On the cyclic barrel pair `cycStore` the
de-barrelling follow does not complete: a fuel bound of 12 is exhausted,
and one step from `A.ts` lands on `B.ts` and vice versa, so the recursion
alternates between the two files forever. -/
theorem readSymbol_cycle_nontermination :
    readSymbol cycStore ("S") 12 none = none ∧
    readSymbol cycStore ("S") 1 (some ("A.ts")) = readSymbol cycStore ("S") 0 (some ("B.ts")) ∧
    readSymbol cycStore ("S") 1 (some ("B.ts")) = readSymbol cycStore ("S") 0 (some ("A.ts")) :=
  ⟨readSymbol_cyc_diverges 12, cyc_step_A 0, cyc_step_B 0⟩

/-- C9 (amended).  Of the two recursive re-export walks, only the proxy-set
computation is cycle-safe: (a) the proxy worklist loop terminates on every
store — fuel past `imports.length + 2` never changes its result — while
(b) the de-barrelling follow of symbol lookup, which carries no visited
set, exhausts every fuel bound on the cyclic barrel pair `cycStore`. -/
theorem reexport_traversal_termination :
    (∀ (db : Store) (start : String) (n : Nat), db.imports.length + 2 ≤ n →
      proxyLoop db n [start] [start] = proxySet db start) ∧
    (∀ fuel, readSymbol cycStore ("S") fuel none = none) :=
  ⟨fun db start _ hn => proxyLoop_terminates db start hn, readSymbol_cyc_diverges⟩

theorem reexport_traversal_termination_witness :
    proxyLoop cycStore 7 [("A.ts")] [("A.ts")] = proxySet cycStore ("A.ts") ∧
    readSymbol cycStore ("S") 3 none = none :=
  ⟨reexport_traversal_termination.1 cycStore ("A.ts") 7 (by decide),
   reexport_traversal_termination.2 3⟩

/- ### C4: de-barrelling returns the real definition -/

/-- The barrel scenario store: `core` holds a genuine definition of `S`
(kind `genuineKind`), the barrel file `indexF` holds a re-export record for
`S` plus an import edge for it whose resolution is `resolved`. -/
def barrelStore (core indexF S symsI resolved genuineKind : String) : Store :=
  { files := [core, indexF]
    imports := [⟨indexF, ("./core"), symsI, resolved⟩]
    exports := [⟨1, core, S, genuineKind, (""), (""), 1, 9, ("Other"), ("[]"), none⟩,
                ⟨2, indexF, S, ("ExportSpecifier"), (""), (""), 1, 1, ("Other"), ("[]"), none⟩] }

theorem barrel_query_none
    (core indexF S symsI resolved genuineKind : String)
    (hdot : ('.' : Char) ∉ S.data)
    (hk1 : genuineKind ≠ ("ExportSpecifier")) :
    readSymbolQuery (barrelStore core indexF S symsI resolved genuineKind) S none =
      [⟨1, core, S, genuineKind, (""), (""), 1, 9, ("Other"), ("[]"), none⟩,
       ⟨2, indexF, S, ("ExportSpecifier"), (""), (""), 1, 1, ("Other"), ("[]"), none⟩] := by
  simp [readSymbolQuery, barrelStore, hdot, List.filter, sortWith, insertLe,
    readSymbolLe, readKey1, readKey2, hk1]

theorem barrel_query_hint_index
    (core indexF S symsI resolved genuineKind : String)
    (hdot : ('.' : Char) ∉ S.data)
    (hci : core ≠ indexF) :
    readSymbolQuery (barrelStore core indexF S symsI resolved genuineKind) S (some indexF) =
      [⟨2, indexF, S, ("ExportSpecifier"), (""), (""), 1, 1, ("Other"), ("[]"), none⟩] := by
  simp [readSymbolQuery, barrelStore, hdot, List.filter, sortWith, insertLe,
    readSymbolLe, readKey1, readKey2, hci]

theorem barrel_query_hint_core
    (core indexF S symsI resolved genuineKind : String)
    (hdot : ('.' : Char) ∉ S.data)
    (hci : core ≠ indexF) :
    readSymbolQuery (barrelStore core indexF S symsI resolved genuineKind) S (some core) =
      [⟨1, core, S, genuineKind, (""), (""), 1, 9, ("Other"), ("[]"), none⟩] := by
  have hic : indexF ≠ core := fun h => hci h.symm
  simp [readSymbolQuery, barrelStore, hdot, List.filter, sortWith, insertLe,
    readSymbolLe, readKey1, readKey2, hic]

/-- C4.  De-barrelling: in the barrel scenario store (genuine definition of
`S` in `core`, re-export record in `indexF` whose import edge mentions `S`
or is a wildcard), (a) lookup with no file hint returns the genuine
definition from `core`; (b) lookup pinned to the barrel file follows
the import edge to the resolved target and returns the genuine definition from
`core`; (c) when the re-export's import edge does not resolve, the original
re-export record itself is returned. -/
theorem debarrel_lookup_scenario
    (core indexF S symsI genuineKind : String)
    (hdot : ('.' : Char) ∉ S.data)
    (hk1 : genuineKind ≠ ("ExportSpecifier"))
    (hk2 : genuineKind ≠ ("ExportAllDeclaration"))
    (hci : core ≠ indexF)
    (hcore : core ≠ (""))
    (hSymI : likeContainsName symsI S = true ∨ symsI = ("*")) :
    (∀ fuel, readSymbol (barrelStore core indexF S symsI core genuineKind) S (fuel + 1) none =
      some (ReadResult.found ⟨1, core, S, genuineKind, (""), (""), 1, 9, ("Other"), ("[]"), none⟩)) ∧
    (∀ fuel, readSymbol (barrelStore core indexF S symsI core genuineKind) S (fuel + 2)
        (some indexF) =
      some (ReadResult.found ⟨1, core, S, genuineKind, (""), (""), 1, 9, ("Other"), ("[]"), none⟩)) ∧
    (∀ fuel, readSymbol (barrelStore core indexF S symsI ("") genuineKind) S (fuel + 1)
        (some indexF) =
      some (ReadResult.found ⟨2, indexF, S, ("ExportSpecifier"), (""), (""), 1, 1,
        ("Other"), ("[]"), none⟩)) := by
  have hfind : ∀ resolved : String,
      (barrelStore core indexF S symsI resolved genuineKind).imports.find? (fun i =>
        i.file_path == indexF &&
        (likeContainsName i.imported_symbols S || i.imported_symbols == ("*"))) =
      some ⟨indexF, ("./core"), symsI, resolved⟩ := by
    intro resolved
    have hpred : (likeContainsName symsI S || symsI == ("*")) = true := by
      rcases hSymI with h | h
      · rw [h]
        rfl
      · rw [h]
        simp
    simp [barrelStore, List.find?, hpred]
  have hgood : ∀ fuel, readSymbol (barrelStore core indexF S symsI core genuineKind) S
      (fuel + 1) (some core) =
      some (ReadResult.found ⟨1, core, S, genuineKind, (""), (""), 1, 9, ("Other"), ("[]"), none⟩) := by
    intro fuel
    rw [readSymbol, barrel_query_hint_core core indexF S symsI core genuineKind hdot hci]
    simp only []
    rw [if_neg (by
      intro h
      rcases h with h | h
      · exact hk1 h
      · exact hk2 h)]
  refine ⟨?_, ?_, ?_⟩
  · intro fuel
    rw [readSymbol, barrel_query_none core indexF S symsI core genuineKind hdot hk1]
    simp only []
    rw [if_neg (by
      intro h
      rcases h with h | h
      · exact hk1 h
      · exact hk2 h)]
  · intro fuel
    rw [show fuel + 2 = (fuel + 1) + 1 from rfl]
    rw [readSymbol, barrel_query_hint_index core indexF S symsI core genuineKind hdot hci]
    simp only []
    rw [if_pos (Or.inl trivial)]
    simp only [hfind core]
    rw [if_pos hcore]
    exact hgood fuel
  · intro fuel
    rw [readSymbol, barrel_query_hint_index core indexF S symsI ("") genuineKind hdot hci]
    simp only []
    rw [if_pos (Or.inl trivial)]
    simp only [hfind ("")]
    simp

theorem debarrel_lookup_scenario_witness :
    readSymbol (barrelStore ("core.ts") ("index.ts") ("S") ("S") ("core.ts")
        ("FunctionDeclaration")) ("S") 1 none =
      some (ReadResult.found ⟨1, ("core.ts"), ("S"), ("FunctionDeclaration"), (""), (""),
        1, 9, ("Other"), ("[]"), none⟩) ∧
    readSymbol (barrelStore ("core.ts") ("index.ts") ("S") ("S") ("core.ts")
        ("FunctionDeclaration")) ("S") 2 (some ("index.ts")) =
      some (ReadResult.found ⟨1, ("core.ts"), ("S"), ("FunctionDeclaration"), (""), (""),
        1, 9, ("Other"), ("[]"), none⟩) ∧
    readSymbol (barrelStore ("core.ts") ("index.ts") ("S") ("S") ("")
        ("FunctionDeclaration")) ("S") 1 (some ("index.ts")) =
      some (ReadResult.found ⟨2, ("index.ts"), ("S"), ("ExportSpecifier"), (""), (""),
        1, 1, ("Other"), ("[]"), none⟩) := by
  have h := debarrel_lookup_scenario ("core.ts") ("index.ts") ("S") ("S")
    ("FunctionDeclaration") (by decide) (by decide) (by decide) (by decide) (by decide)
    (Or.inl (by decide))
  exact ⟨h.1 0, h.2.1 0, h.2.2 0⟩

/- ### C5: ambiguity handling -/

/-- Two unrelated files each defining a genuine top-level implementation
sharing one name; the first spans more lines than the second. -/
def twinStore (f1 f2 S : String) : Store :=
  { files := [f1, f2]
    imports := []
    exports := [⟨1, f1, S, ("FunctionDeclaration"), (""), (""), 1, 10, ("Other"), ("[]"), none⟩,
                ⟨2, f2, S, ("FunctionDeclaration"), (""), (""), 1, 5, ("Other"), ("[]"), none⟩] }

/-- C5 (counterexample).  With two genuine implementations of `run` and no
file hint, the single-symbol lookup does return both candidates, but the
batch lookup (`LIMIT 1`) silently returns only the top-ranked one. -/
theorem batch_lookup_silent_pick :
    getSymbolDefinition (twinStore ("a.ts") ("b.ts") ("run")) ("run") none =
      DefResult.ambiguous
        [⟨1, ("a.ts"), ("run"), ("FunctionDeclaration"), (""), (""), 1, 10, ("Other"), ("[]"), none⟩,
         ⟨2, ("b.ts"), ("run"), ("FunctionDeclaration"), (""), (""), 1, 5, ("Other"), ("[]"), none⟩] ∧
    batchLookupOne (twinStore ("a.ts") ("b.ts") ("run")) ("run") none =
      some ⟨1, ("a.ts"), ("run"), ("FunctionDeclaration"), (""), (""), 1, 10, ("Other"), ("[]"), none⟩ := by
  constructor
  · decide
  · decide

/-- C5 (amended).  In the two-implementation store, the single-symbol
definition lookup with no file hint returns the full candidate list (never
an arbitrary single pick), while the batch variant's `LIMIT 1` query
silently returns only the top-ranked, longest-span candidate. -/
theorem ambiguous_lookup_behavior (f1 f2 S : String) :
    getSymbolDefinition (twinStore f1 f2 S) S none =
      DefResult.ambiguous
        [⟨1, f1, S, ("FunctionDeclaration"), (""), (""), 1, 10, ("Other"), ("[]"), none⟩,
         ⟨2, f2, S, ("FunctionDeclaration"), (""), (""), 1, 5, ("Other"), ("[]"), none⟩] ∧
    batchLookupOne (twinStore f1 f2 S) S none =
      some ⟨1, f1, S, ("FunctionDeclaration"), (""), (""), 1, 10, ("Other"), ("[]"), none⟩ := by
  have hq : sortWith defLookupLe (defLookupMatches (twinStore f1 f2 S) S none) =
      [⟨1, f1, S, ("FunctionDeclaration"), (""), (""), 1, 10, ("Other"), ("[]"), none⟩,
       ⟨2, f2, S, ("FunctionDeclaration"), (""), (""), 1, 5, ("Other"), ("[]"), none⟩] := by
    simp [defLookupMatches, twinStore, List.filter, sortWith, insertLe, defLookupLe, defKey]
  constructor
  · rw [getSymbolDefinition, hq]
    simp [List.filter]
  · rw [batchLookupOne, hq]
    rfl

/- ### Incremental sync engine (src/index/cache.ts)

`ensureCacheUpToDate` is embedded as a pure function over: the cached
`files` rows, the scanner's on-disk `{path, mtime}` set, a parse oracle
standing for the external Declaration Extractor / config parser plus the
content read (`none` models a thrown parse), the import resolver, the
clock value used for `last_scanned_at` (`Date.now()`), and the next SQLite
rowid of the `exports` table.  Its output records the early-return flag,
the work lists, the transactions issued (each a list of row operations)
and the resulting `files` table. -/

structure FileMeta where
  path : String
  mtime : Int
deriving DecidableEq, Repr

structure FileRow where
  path : String
  mtime : Int
  last_scanned_at : Int
  classification : String
  summary : String
deriving DecidableEq, Repr

structure MemberRec where
  name : String
  kind : String
  signature : String
  doc : Option String
  line : Int
  endLine : Option Int
  classification : Option String
  capabilities : Option String
deriving DecidableEq, Repr

structure ExportRec where
  name : String
  kind : String
  signature : String
  doc : Option String
  line : Int
  endLine : Option Int
  classification : Option String
  capabilities : Option String
  members : List MemberRec
deriving DecidableEq, Repr

/-- A raw import record from the extractor: the specifier and the joined
 imported-name list. -/
structure ImportRec where
  module : String
  name : String
deriving DecidableEq, Repr

structure ConfigRec where
  key : String
  value : String
  kind : String
deriving DecidableEq, Repr

/-- Payload of a successful parse: extractor output plus file content. -/
structure ParsePayload where
  exports : List ExportRec
  imports : List ImportRec
  configs : Option (List ConfigRec)
  classification : Option String
  summary : Option String
  content : String
deriving DecidableEq, Repr

/-- One entry of the `results` array: parsed data plus metadata and kind
tag.  The catch branch produces the degraded record with empty exports and
 imports, empty content, kind `error` — and, notably, no classification
field. -/
structure Item where
  meta : FileMeta
  exports : List ExportRec
  imports : List ImportRec
  configs : Option (List ConfigRec)
  content : Option String
  classification : Option String
  summary : Option String
  kind : String
deriving DecidableEq, Repr

/-- JavaScript `x || d` on an optional string field: `undefined` and the
empty string are falsy. -/
def jsOrStr (v : Option String) (d : String) : String :=
  match v with
  | some s => if s = ("") then d else s
  | none => d

/-- JavaScript `x || d` on an optional numeric field: `undefined` and `0`
are falsy. -/
def jsOrInt (v : Option Int) (d : Int) : Int :=
  match v with
  | some x => if x = 0 then d else x
  | none => d

/-- Suffix test over the character lists (kernel-friendly `endsWith`). -/
def strEndsWith (s suf : String) : Bool := chPre suf.data.reverse s.data.reverse

/-- The `isCode` test of the parse task: the file name ends in `.ts` or
`.tsx` (a suffix test is unchanged by dropping the directory part). -/
def isCodeFile (path : String) : Bool :=
  strEndsWith path (".ts") || strEndsWith path (".tsx")

/-- One parse task: on success the payload is wrapped with kind `code` or
`config`; a thrown parse is caught and degraded. -/
def mkItem (oracle : String → Option ParsePayload) (meta : FileMeta) : Item :=
  match oracle meta.path with
  | some p =>
    { meta := meta, exports := p.exports, imports := p.imports, configs := p.configs,
      content := some p.content, classification := p.classification,
      summary := p.summary,
      kind := if isCodeFile meta.path then ("code") else ("config") }
  | none =>
    { meta := meta, exports := [], imports := [], configs := none, content := some (""),
      classification := none, summary := none, kind := ("error") }

/-- A row-level write issued inside a transaction. -/
inductive StoreOp where
  | deleteFile (path : String)
  | insertFile (path : String) (mtime : Int) (last_scanned_at : Int)
      (classification : String) (summary : String)
  | insertExport (rowid : Nat) (file_path : String) (name : String) (kind : String)
      (signature : String) (doc : String) (start_line : Int) (end_line : Int)
      (classification : String) (capabilities : String) (parent_id : Option Nat)
  | insertImport (file_path : String) (module_specifier : String)
      (imported_symbols : String) (resolved_path : String)
  | insertConfig (file_path : String) (key : String) (value : String) (kind : String)
  | insertContent (file_path : String) (content : String)
deriving DecidableEq, Repr

/-- Member rows of one parent: each insert consumes a rowid, and each
carries the parent's captured rowid as `parent_id`. -/
def memberOps (fp : String) (parentId : Nat) : Nat → List MemberRec → List StoreOp × Nat
  | sid, [] => ([], sid)
  | sid, m :: rest =>
    let op := StoreOp.insertExport sid fp m.name m.kind m.signature (jsOrStr m.doc (""))
      m.line (jsOrInt m.endLine m.line) (jsOrStr m.classification ("Member"))
      (jsOrStr m.capabilities ("[]")) (some parentId)
    let r := memberOps fp parentId (sid + 1) rest
    (op :: r.1, r.2)

/-- Export rows of one file: the parent row is inserted first and its
rowid (`lastInsertRowid`) is captured before the member rows are written. -/
def exportOps (fp : String) : Nat → List ExportRec → List StoreOp × Nat
  | sid, [] => ([], sid)
  | sid, e :: rest =>
    let pop := StoreOp.insertExport sid fp e.name e.kind e.signature (jsOrStr e.doc (""))
      e.line (jsOrInt e.endLine e.line) (jsOrStr e.classification ("Other"))
      (jsOrStr e.capabilities ("[]")) none
    let mr := memberOps fp sid (sid + 1) e.members
    let rr := exportOps fp mr.2 rest
    (pop :: (mr.1 ++ rr.1), rr.2)

/-- Import edges of one file, each resolved at write time. -/
def importOps (resolve : String → String → String) (fp : String)
    (imps : List ImportRec) : List StoreOp :=
  imps.map (fun imp => StoreOp.insertImport fp imp.module imp.name (resolve imp.module fp))

def configOps (fp : String) : Option (List ConfigRec) → List StoreOp
  | none => []
  | some cs => cs.map (fun c => StoreOp.insertConfig fp c.key c.value c.kind)

def contentOps (fp : String) : Option String → List StoreOp
  | none => []
  | some c => [StoreOp.insertContent fp c]

/-- All writes for one changed file, in source order: delete-then-reinsert
the file row, then exports (parents before members), then import edges,
then config entries, then the content row. -/
def itemOps (resolve : String → String → String) (now : Int) (item : Item)
    (sid : Nat) : List StoreOp × Nat :=
  let er := exportOps item.meta.path sid item.exports
  ([StoreOp.deleteFile item.meta.path,
    StoreOp.insertFile item.meta.path item.meta.mtime now
      (jsOrStr item.classification ("Unknown")) (jsOrStr item.summary (""))]
   ++ er.1 ++ importOps resolve item.meta.path item.imports
   ++ configOps item.meta.path item.configs
   ++ contentOps item.meta.path item.content, er.2)

/-- The body of the single write transaction: the per-file blocks of every
item of the batch, in order, threading the exports rowid counter. -/
def itemsOps (resolve : String → String → String) (now : Int) :
    List Item → Nat → List StoreOp
  | [], _ => []
  | it :: rest, sid =>
    let r := itemOps resolve now it sid
    r.1 ++ itemsOps resolve now rest r.2

/-- Last-wins lookup, the JavaScript `Map` built from an entry list. -/
def mapGet (l : List (String × Int)) (k : String) : Option Int :=
  l.foldl (fun acc p => if p.1 = k then some p.2 else acc) none

/-- The `{path → mtime}` entries of the cached `files` rows. -/
def pairsOf (files : List FileRow) : List (String × Int) :=
  files.map (fun f => (f.path, f.mtime))

/-- The `{path → mtime}` entries of the scanned on-disk state. -/
def diskPairsOf (disk : List FileMeta) : List (String × Int) :=
  disk.map (fun m => (m.path, m.mtime))

/-- The `toDelete` work list: cached paths absent from the scanned disk state. -/
def syncToDelete (dbFiles : List FileRow) (disk : List FileMeta) : List String :=
  (dbFiles.filter (fun f => (mapGet (diskPairsOf disk) f.path).isNone)).map FileRow.path

/-- The `toProcess` work list: disk entries whose cached mtime is missing or different. -/
def syncToProcess (dbFiles : List FileRow) (disk : List FileMeta) : List FileMeta :=
  disk.filter (fun m =>
    match mapGet (pairsOf dbFiles) m.path with
    | none => true
    | some mt => !(mt == m.mtime))

/-- Effect of a row operation on the `files` table.  `deleteFile` removes
every row with the path (its cascade to derived rows is carried by the
schema); `insertFile` is SQLite `INSERT OR REPLACE` keyed on the unique
path.  All other operations leave the `files` table unchanged. -/
def applyFileOp (files : List FileRow) : StoreOp → List FileRow
  | StoreOp.deleteFile p => files.filter (fun f => !(f.path == p))
  | StoreOp.insertFile p m t c s =>
      files.filter (fun f => !(f.path == p)) ++ [⟨p, m, t, c, s⟩]
  | _ => files

structure SyncResult where
  early : Bool
  toDelete : List String
  items : List Item
  txns : List (List StoreOp)
  files : List FileRow
deriving Repr

/-- Embedding of `ensureCacheUpToDate`: diff the cached `{path → mtime}`
map against the scanned on-disk map; return immediately when both work
lists are empty; otherwise delete removed files in one transaction, parse
every changed file (per-file failures degrade), and commit all parsed
results in one write transaction. -/
def ensureCacheUpToDate (resolve : String → String → String) (now : Int) (sid : Nat)
    (dbFiles : List FileRow) (disk : List FileMeta)
    (oracle : String → Option ParsePayload) : SyncResult :=
  let toDelete := syncToDelete dbFiles disk
  let toProcess := syncToProcess dbFiles disk
  if toDelete.isEmpty && toProcess.isEmpty then
    { early := true, toDelete := [], items := [], txns := [], files := dbFiles }
  else
    let items := toProcess.map (mkItem oracle)
    let deleteOps := toDelete.map StoreOp.deleteFile
    let writeOps := itemsOps resolve now items sid
    let txns := (if toDelete.isEmpty then [] else [deleteOps]) ++
      (if items.isEmpty then [] else [writeOps])
    { early := false, toDelete := toDelete, items := items, txns := txns,
      files := writeOps.foldl applyFileOp (deleteOps.foldl applyFileOp dbFiles) }

/- ### The files table across a sync pass -/

theorem mapGet_aux (l : List (String × Int)) (acc : Option Int) (k : String) :
    l.foldl (fun acc p => if p.1 = k then some p.2 else acc) acc =
      match mapGet l k with
      | some v => some v
      | none => acc := by
  induction l generalizing acc with
  | nil => rfl
  | cons p l ih =>
    show List.foldl _ (if p.1 = k then some p.2 else acc) l = _
    rw [ih]
    show _ = match List.foldl _ (if p.1 = k then some p.2 else none) l with
      | some v => some v
      | none => acc
    rw [ih]
    cases hm : mapGet l k with
    | some v => rfl
    | none =>
      by_cases hp : p.1 = k
      · rw [if_pos hp, if_pos hp]
      · rw [if_neg hp, if_neg hp]

theorem mapGet_cons (a : String) (b : Int) (l : List (String × Int)) (k : String) :
    mapGet ((a, b) :: l) k =
      match mapGet l k with
      | some v => some v
      | none => if a = k then some b else none := by
  show List.foldl _ (if a = k then some b else none) l = _
  rw [mapGet_aux]

theorem mapGet_append (l1 l2 : List (String × Int)) (k : String) :
    mapGet (l1 ++ l2) k =
      match mapGet l2 k with
      | some v => some v
      | none => mapGet l1 k := by
  show (l1 ++ l2).foldl _ none = _
  rw [List.foldl_append, mapGet_aux]
  rfl

theorem mapGet_eq_none_iff (l : List (String × Int)) (k : String) :
    mapGet l k = none ↔ ∀ p ∈ l, p.1 ≠ k := by
  induction l with
  | nil => simp [mapGet]
  | cons p l ih =>
    rcases p with ⟨a, b⟩
    rw [mapGet_cons]
    cases hm : mapGet l k with
    | some v =>
      simp only []
      constructor
      · intro h
        cases h
      · intro h
        exfalso
        have := (ih.mpr (fun q hq => h q (List.mem_cons_of_mem _ hq)))
        rw [hm] at this
        cases this
    | none =>
      simp only []
      constructor
      · intro h
        intro q hq
        rcases List.mem_cons.mp hq with hq1 | hq2
        · subst hq1
          intro hk
          rw [if_pos hk] at h
          cases h
        · exact (ih.mp hm) q hq2
      · intro h
        rw [if_neg (h (a, b) (List.mem_cons_self _ _))]

theorem mapGet_filterKey (l : List (String × Int)) (p k : String) :
    mapGet (l.filter (fun q => !(q.1 == p))) k = if k = p then none else mapGet l k := by
  induction l with
  | nil =>
    by_cases hk : k = p
    · simp [hk, mapGet]
    · simp [hk, mapGet]
  | cons q l ih =>
    rcases q with ⟨a, b⟩
    rw [List.filter_cons]
    by_cases ha : a = p
    · rw [if_neg (by simp [ha]), ih]
      by_cases hk : k = p
      · rw [if_pos hk, if_pos hk]
      · rw [if_neg hk, if_neg hk, mapGet_cons]
        cases hm : mapGet l k with
        | some v => rfl
        | none =>
          rw [if_neg (by rw [ha]; exact fun h => hk h.symm)]
    · rw [if_pos (by simp [ha]), mapGet_cons, ih, mapGet_cons]
      by_cases hk : k = p
      · rw [if_pos hk]
        cases hm : mapGet (l.filter (fun q => !(q.1 == p))) k with
        | some v =>
          exfalso
          rw [ih, if_pos hk] at hm
          cases hm
        | none =>
          rw [if_neg (by rw [hk]; exact ha)]
          simp only [if_pos hk]
      · simp only [if_neg hk]

theorem pairsOf_filter (files : List FileRow) (p : String) :
    pairsOf (files.filter (fun f => !(f.path == p))) =
      (pairsOf files).filter (fun q => !(q.1 == p)) := by
  induction files with
  | nil => rfl
  | cons f rest ih =>
    rw [List.filter_cons]
    by_cases hf : f.path = p
    · rw [if_neg (by simp [hf])]
      show pairsOf (List.filter _ rest) = List.filter _ ((f.path, f.mtime) :: pairsOf rest)
      rw [List.filter_cons, if_neg (by simp [hf])]
      exact ih
    · rw [if_pos (by simp [hf])]
      show (f.path, f.mtime) :: pairsOf (List.filter _ rest) =
        List.filter _ ((f.path, f.mtime) :: pairsOf rest)
      rw [List.filter_cons, if_pos (by simp [hf])]
      rw [ih]

theorem mapGet_deleteFile (files : List FileRow) (p k : String) :
    mapGet (pairsOf (applyFileOp files (StoreOp.deleteFile p))) k =
      if k = p then none else mapGet (pairsOf files) k := by
  show mapGet (pairsOf (files.filter (fun f => !(f.path == p)))) k = _
  rw [pairsOf_filter, mapGet_filterKey]

theorem mapGet_insertFile (files : List FileRow) (p : String) (m t : Int) (c s : String)
    (k : String) :
    mapGet (pairsOf (applyFileOp files (StoreOp.insertFile p m t c s))) k =
      if k = p then some m else mapGet (pairsOf files) k := by
  show mapGet (pairsOf (files.filter (fun f => !(f.path == p)) ++ [⟨p, m, t, c, s⟩])) k = _
  rw [show pairsOf (files.filter (fun f => !(f.path == p)) ++ [⟨p, m, t, c, s⟩]) =
    pairsOf (files.filter (fun f => !(f.path == p))) ++ [(p, m)] from by
      simp [pairsOf]]
  rw [mapGet_append]
  rw [show mapGet [(p, m)] k = if p = k then some m else none from mapGet_cons p m [] k]
  by_cases hk : k = p
  · rw [if_pos (hk.symm), if_pos hk]
  · rw [if_neg (fun h => hk h.symm), pairsOf_filter, mapGet_filterKey, if_neg hk, if_neg hk]

theorem mem_deleteFile {files : List FileRow} {p : String} {f : FileRow}
    (hf : f ∈ applyFileOp files (StoreOp.deleteFile p)) : f ∈ files ∧ f.path ≠ p := by
  have hf2 := hf
  rw [show applyFileOp files (StoreOp.deleteFile p) =
    files.filter (fun f => !(f.path == p)) from rfl, List.mem_filter] at hf2
  refine ⟨hf2.1, ?_⟩
  have := hf2.2
  simp at this
  exact this

theorem mem_insertFile {files : List FileRow} {p : String} {m t : Int} {c s : String}
    {f : FileRow} (hf : f ∈ applyFileOp files (StoreOp.insertFile p m t c s)) :
    f ∈ files ∨ f = ⟨p, m, t, c, s⟩ := by
  have hf2 := hf
  rw [show applyFileOp files (StoreOp.insertFile p m t c s) =
    files.filter (fun f => !(f.path == p)) ++ [⟨p, m, t, c, s⟩] from rfl,
    List.mem_append] at hf2
  rcases hf2 with h | h
  · exact Or.inl (List.mem_filter.mp h).1
  · rw [List.mem_singleton] at h
    exact Or.inr h

/-- Operations that leave the `files` table unchanged. -/
def NeutralOp (op : StoreOp) : Prop := ∀ files, applyFileOp files op = files

theorem neutral_insertExport (rid : Nat) (fp n k sg d : String) (sl el : Int)
    (c cp : String) (pid : Option Nat) :
    NeutralOp (StoreOp.insertExport rid fp n k sg d sl el c cp pid) := fun _ => rfl

theorem neutral_memberOps (fp : String) (parentId : Nat) :
    ∀ ms : List MemberRec, ∀ sid : Nat, ∀ op ∈ (memberOps fp parentId sid ms).1, NeutralOp op := by
  intro ms
  induction ms with
  | nil =>
    intro sid op hop
    cases hop
  | cons m rest ih =>
    intro sid op hop
    rcases List.mem_cons.mp hop with h | h
    · subst h
      exact neutral_insertExport _ _ _ _ _ _ _ _ _ _ _
    · exact ih (sid + 1) op h

theorem neutral_exportOps (fp : String) :
    ∀ es : List ExportRec, ∀ sid : Nat, ∀ op ∈ (exportOps fp sid es).1, NeutralOp op := by
  intro es
  induction es with
  | nil =>
    intro sid op hop
    cases hop
  | cons e rest ih =>
    intro sid op hop
    rcases List.mem_cons.mp hop with h | h
    · subst h
      exact neutral_insertExport _ _ _ _ _ _ _ _ _ _ _
    · rcases List.mem_append.mp h with h2 | h2
      · exact neutral_memberOps fp sid e.members (sid + 1) op h2
      · exact ih (memberOps fp sid (sid + 1) e.members).2 op h2

theorem neutral_importOps (resolve : String → String → String) (fp : String)
    (imps : List ImportRec) : ∀ op ∈ importOps resolve fp imps, NeutralOp op := by
  intro op hop
  rw [importOps, List.mem_map] at hop
  obtain ⟨imp, -, h⟩ := hop
  rw [← h]
  exact fun _ => rfl

theorem neutral_configOps (fp : String) (cs : Option (List ConfigRec)) :
    ∀ op ∈ configOps fp cs, NeutralOp op := by
  intro op hop
  cases cs with
  | none => cases hop
  | some l =>
    rw [configOps, List.mem_map] at hop
    obtain ⟨c, -, h⟩ := hop
    rw [← h]
    exact fun _ => rfl

theorem neutral_contentOps (fp : String) (c : Option String) :
    ∀ op ∈ contentOps fp c, NeutralOp op := by
  intro op hop
  cases c with
  | none => cases hop
  | some s =>
    rcases List.mem_singleton.mp hop with h
    rw [h]
    exact fun _ => rfl

theorem foldl_neutral (ops : List StoreOp) (hops : ∀ op ∈ ops, NeutralOp op) :
    ∀ files, ops.foldl applyFileOp files = files := by
  induction ops with
  | nil => intro files; rfl
  | cons op rest ih =>
    intro files
    rw [List.foldl_cons, hops op (List.mem_cons_self _ _) files]
    exact ih (fun o ho => hops o (List.mem_cons_of_mem _ ho)) files

/-- The `files`-table effect of one item's block: the path's rows are
replaced by the freshly inserted row; everything else is untouched. -/
theorem itemOps_files (resolve : String → String → String) (now : Int) (item : Item)
    (sid : Nat) (files : List FileRow) :
    ((itemOps resolve now item sid).1).foldl applyFileOp files =
      files.filter (fun f => !(f.path == item.meta.path)) ++
        [⟨item.meta.path, item.meta.mtime, now,
          jsOrStr item.classification ("Unknown"), jsOrStr item.summary ("")⟩] := by
  rw [show (itemOps resolve now item sid).1 =
    [StoreOp.deleteFile item.meta.path,
     StoreOp.insertFile item.meta.path item.meta.mtime now
       (jsOrStr item.classification ("Unknown")) (jsOrStr item.summary (""))] ++
    ((exportOps item.meta.path sid item.exports).1 ++
      importOps resolve item.meta.path item.imports ++
      configOps item.meta.path item.configs ++
      contentOps item.meta.path item.content) from by
      rw [itemOps]
      simp [List.append_assoc]]
  rw [List.foldl_append]
  rw [foldl_neutral _ (by
    intro op hop
    rcases List.mem_append.mp hop with h | h
    · rcases List.mem_append.mp h with h2 | h2
      · rcases List.mem_append.mp h2 with h3 | h3
        · exact neutral_exportOps item.meta.path item.exports sid op h3
        · exact neutral_importOps resolve item.meta.path item.imports op h3
      · exact neutral_configOps item.meta.path item.configs op h2
    · exact neutral_contentOps item.meta.path item.content op h)]
  show applyFileOp (applyFileOp files (StoreOp.deleteFile item.meta.path))
    (StoreOp.insertFile item.meta.path item.meta.mtime now _ _) = _
  show (applyFileOp files (StoreOp.deleteFile item.meta.path)).filter
      (fun f => !(f.path == item.meta.path)) ++ [_] = _
  rw [show applyFileOp files (StoreOp.deleteFile item.meta.path) =
    files.filter (fun f => !(f.path == item.meta.path)) from rfl]
  rw [List.filter_filter]
  congr 1
  apply List.filter_congr
  intro f hf
  rw [Bool.and_self]

theorem itemsOps_files_get (resolve : String → String → String) (now : Int) :
    ∀ (items : List Item) (sid : Nat) (files : List FileRow) (k : String),
      (items.map (fun it => it.meta.path)).Nodup →
      mapGet (pairsOf ((itemsOps resolve now items sid).foldl applyFileOp files)) k =
        match items.find? (fun it => it.meta.path == k) with
        | some it => some it.meta.mtime
        | none => mapGet (pairsOf files) k := by
  intro items
  induction items with
  | nil =>
    intro sid files k hnd
    rfl
  | cons it rest ih =>
    intro sid files k hnd
    rw [show itemsOps resolve now (it :: rest) sid =
      (itemOps resolve now it sid).1 ++ itemsOps resolve now rest (itemOps resolve now it sid).2
      from by rw [itemsOps]]
    rw [List.foldl_append]
    have hnd_rest : (rest.map (fun it => it.meta.path)).Nodup := by
      rw [List.map_cons, List.nodup_cons] at hnd
      exact hnd.2
    have hnotin : it.meta.path ∉ rest.map (fun it => it.meta.path) := by
      rw [List.map_cons, List.nodup_cons] at hnd
      exact hnd.1
    rw [ih (itemOps resolve now it sid).2
      ((itemOps resolve now it sid).1.foldl applyFileOp files) k hnd_rest]
    by_cases hk : it.meta.path = k
    · have hbeq : (it.meta.path == k) = true := by simp [hk]
      simp only [List.find?_cons, hbeq]
      cases hfr : rest.find? (fun it2 => it2.meta.path == k) with
      | some it2 =>
        exfalso
        have hmem := List.find?_some hfr
        have hmem2 := List.mem_of_find?_eq_some hfr
        simp at hmem
        apply hnotin
        rw [List.mem_map]
        exact ⟨it2, hmem2, by rw [hmem, hk]⟩
      | none =>
        rw [itemOps_files]
        rw [show files.filter (fun f => !(f.path == it.meta.path)) ++
          [⟨it.meta.path, it.meta.mtime, now, jsOrStr it.classification ("Unknown"),
            jsOrStr it.summary ("")⟩] =
          applyFileOp files (StoreOp.insertFile it.meta.path it.meta.mtime now
            (jsOrStr it.classification ("Unknown")) (jsOrStr it.summary (""))) from rfl]
        rw [mapGet_insertFile, if_pos hk.symm]
    · have hbeq : (it.meta.path == k) = false := by simp [hk]
      simp only [List.find?_cons, hbeq]
      cases hfr : rest.find? (fun it2 => it2.meta.path == k) with
      | some it2 => rfl
      | none =>
        rw [itemOps_files]
        rw [show files.filter (fun f => !(f.path == it.meta.path)) ++
          [⟨it.meta.path, it.meta.mtime, now, jsOrStr it.classification ("Unknown"),
            jsOrStr it.summary ("")⟩] =
          applyFileOp files (StoreOp.insertFile it.meta.path it.meta.mtime now
            (jsOrStr it.classification ("Unknown")) (jsOrStr it.summary (""))) from rfl]
        rw [mapGet_insertFile, if_neg (fun h => hk h.symm)]

theorem itemsOps_files_mem (resolve : String → String → String) (now : Int) :
    ∀ (items : List Item) (sid : Nat) (files : List FileRow) (f : FileRow),
      f ∈ (itemsOps resolve now items sid).foldl applyFileOp files →
      f ∈ files ∨ f.path ∈ items.map (fun it => it.meta.path) := by
  intro items
  induction items with
  | nil =>
    intro sid files f hf
    exact Or.inl hf
  | cons it rest ih =>
    intro sid files f hf
    rw [show itemsOps resolve now (it :: rest) sid =
      (itemOps resolve now it sid).1 ++ itemsOps resolve now rest (itemOps resolve now it sid).2
      from by rw [itemsOps], List.foldl_append] at hf
    rcases ih (itemOps resolve now it sid).2 _ f hf with h | h
    · rw [itemOps_files] at h
      rcases List.mem_append.mp h with h2 | h2
      · exact Or.inl (List.mem_filter.mp h2).1
      · rw [List.mem_singleton] at h2
        refine Or.inr ?_
        rw [h2, List.map_cons]
        exact List.mem_cons_self _ _
    · refine Or.inr ?_
      rw [List.map_cons]
      exact List.mem_cons_of_mem _ h

theorem deleteOps_files_get (paths : List String) :
    ∀ (files : List FileRow) (k : String),
      mapGet (pairsOf ((paths.map StoreOp.deleteFile).foldl applyFileOp files)) k =
        if k ∈ paths then none else mapGet (pairsOf files) k := by
  induction paths with
  | nil =>
    intro files k
    rw [if_neg (List.not_mem_nil k)]
    rfl
  | cons p rest ih =>
    intro files k
    rw [List.map_cons, List.foldl_cons, ih]
    by_cases hk : k ∈ rest
    · rw [if_pos hk, if_pos (List.mem_cons_of_mem _ hk)]
    · rw [if_neg hk, mapGet_deleteFile]
      by_cases hkp : k = p
      · rw [if_pos hkp, if_pos (by rw [hkp]; exact List.mem_cons_self _ _)]
      · rw [if_neg hkp, if_neg (by
          intro hmem
          rcases List.mem_cons.mp hmem with h | h
          · exact hkp h
          · exact hk h)]

theorem deleteOps_files_mem (paths : List String) :
    ∀ (files : List FileRow) (f : FileRow),
      f ∈ (paths.map StoreOp.deleteFile).foldl applyFileOp files →
      f ∈ files ∧ f.path ∉ paths := by
  induction paths with
  | nil =>
    intro files f hf
    exact ⟨hf, List.not_mem_nil _⟩
  | cons p rest ih =>
    intro files f hf
    rw [List.map_cons, List.foldl_cons] at hf
    obtain ⟨h1, h2⟩ := ih _ f hf
    obtain ⟨h3, h4⟩ := mem_deleteFile h1
    refine ⟨h3, ?_⟩
    intro hmem
    rcases List.mem_cons.mp hmem with h | h
    · exact h4 h
    · exact h2 h

theorem mkItem_meta (oracle : String → Option ParsePayload) (meta : FileMeta) :
    (mkItem oracle meta).meta = meta := by
  rw [mkItem]
  cases oracle meta.path with
  | some p => rfl
  | none => rfl

theorem procPred_false {cp : List (String × Int)} {m : FileMeta}
    (h : ¬((match mapGet cp m.path with
            | none => true
            | some mt => !(mt == m.mtime)) = true)) :
    mapGet cp m.path = some m.mtime := by
  cases hm : mapGet cp m.path with
  | none =>
    exfalso
    apply h
    rw [hm]
  | some mt =>
    rw [hm] at h
    simp only [Bool.not_eq_true'] at h
    have h2 : (mt == m.mtime) = true := by
      by_contra hc
      exact h (by
        cases hval : (mt == m.mtime) with
        | true => exact absurd hval hc
        | false => rfl)
    rw [show mt = m.mtime from beq_iff_eq.mp h2]

theorem mapGet_disk_ne_none {disk : List FileMeta} {m : FileMeta} (hm : m ∈ disk) :
    mapGet (diskPairsOf disk) m.path ≠ none := by
  intro hnone
  rw [mapGet_eq_none_iff] at hnone
  exact hnone (m.path, m.mtime) (by rw [diskPairsOf]; exact List.mem_map_of_mem _ hm) rfl

theorem not_in_toDelete {dbFiles : List FileRow} {disk : List FileMeta} {f : FileRow}
    (hf : f ∈ dbFiles) (hnot : f.path ∉ syncToDelete dbFiles disk) :
    mapGet (diskPairsOf disk) f.path ≠ none := by
  intro hnone
  apply hnot
  rw [syncToDelete, List.mem_map]
  refine ⟨f, List.mem_filter.mpr ⟨hf, ?_⟩, rfl⟩
  rw [hnone]
  rfl

theorem toDelete_path_none {dbFiles : List FileRow} {disk : List FileMeta} {p : String}
    (hp : p ∈ syncToDelete dbFiles disk) :
    mapGet (diskPairsOf disk) p = none := by
  rw [syncToDelete, List.mem_map] at hp
  obtain ⟨f, hf, hfp⟩ := hp
  have h2 := (List.mem_filter.mp hf).2
  rw [← hfp]
  cases hm : mapGet (diskPairsOf disk) f.path with
  | none => rfl
  | some v =>
    exfalso
    rw [hm] at h2
    cases h2

theorem sync_files_post (resolve : String → String → String) (now : Int) (sid : Nat)
    (dbFiles : List FileRow) (disk : List FileMeta)
    (oracle : String → Option ParsePayload)
    (hdisk : (disk.map FileMeta.path).Nodup) :
    (∀ f ∈ (ensureCacheUpToDate resolve now sid dbFiles disk oracle).files,
        mapGet (diskPairsOf disk) f.path ≠ none) ∧
    (∀ m ∈ disk,
        mapGet (pairsOf (ensureCacheUpToDate resolve now sid dbFiles disk oracle).files)
          m.path = some m.mtime) := by
  by_cases hearly : ((syncToDelete dbFiles disk).isEmpty &&
      (syncToProcess dbFiles disk).isEmpty) = true
  · have hfiles : (ensureCacheUpToDate resolve now sid dbFiles disk oracle).files = dbFiles := by
      rw [ensureCacheUpToDate]
      simp only [hearly, if_pos]
    rw [hfiles]
    rw [Bool.and_eq_true] at hearly
    have hdel : syncToDelete dbFiles disk = [] := List.isEmpty_iff.mp hearly.1
    have hproc : syncToProcess dbFiles disk = [] := List.isEmpty_iff.mp hearly.2
    constructor
    · intro f hf
      refine not_in_toDelete hf ?_
      rw [hdel]
      exact List.not_mem_nil _
    · intro m hm
      have hnp : m ∉ syncToProcess dbFiles disk := by
        rw [hproc]
        exact List.not_mem_nil _
      rw [syncToProcess] at hnp
      have hpred : ¬((match mapGet (pairsOf dbFiles) m.path with
          | none => true
          | some mt => !(mt == m.mtime)) = true) := by
        intro hp
        exact hnp (List.mem_filter.mpr ⟨hm, hp⟩)
      exact procPred_false hpred
  · have hfiles : (ensureCacheUpToDate resolve now sid dbFiles disk oracle).files =
        (itemsOps resolve now ((syncToProcess dbFiles disk).map (mkItem oracle)) sid).foldl
          applyFileOp
          (((syncToDelete dbFiles disk).map StoreOp.deleteFile).foldl applyFileOp dbFiles) := by
      rw [ensureCacheUpToDate]
      simp only [hearly, if_neg, if_false, Bool.false_eq_true]
    rw [hfiles]
    have hpaths : ((syncToProcess dbFiles disk).map (mkItem oracle)).map
        (fun it => it.meta.path) = (syncToProcess dbFiles disk).map FileMeta.path := by
      rw [List.map_map]
      apply List.map_congr_left
      intro m hm
      show (mkItem oracle m).meta.path = m.path
      rw [mkItem_meta]
    have hnd_items : (((syncToProcess dbFiles disk).map (mkItem oracle)).map
        (fun it => it.meta.path)).Nodup := by
      rw [hpaths]
      refine List.Nodup.sublist ?_ hdisk
      exact List.Sublist.map FileMeta.path (List.filter_sublist disk)
    constructor
    · intro f hf
      rcases itemsOps_files_mem resolve now _ sid _ f hf with h | h
      · obtain ⟨hmem, hnot⟩ := deleteOps_files_mem _ _ f h
        exact not_in_toDelete hmem hnot
      · rw [hpaths, List.mem_map] at h
        obtain ⟨m, hm, hmp⟩ := h
        have hmd : m ∈ disk := List.mem_of_mem_filter hm
        rw [← hmp]
        exact mapGet_disk_ne_none hmd
    · intro m hm
      rw [itemsOps_files_get resolve now _ sid _ m.path hnd_items]
      cases hfind : ((syncToProcess dbFiles disk).map (mkItem oracle)).find?
          (fun it => it.meta.path == m.path) with
      | some it =>
        have hit_mem := List.mem_of_find?_eq_some hfind
        have hit_path := List.find?_some hfind
        simp only [beq_iff_eq] at hit_path
        rw [List.mem_map] at hit_mem
        obtain ⟨m2, hm2, hm2it⟩ := hit_mem
        have hm2d : m2 ∈ disk := List.mem_of_mem_filter hm2
        have hm2path : m2.path = m.path := by
          rw [← hm2it, mkItem_meta] at hit_path
          exact hit_path
        have hm2eq : m2 = m := by
          have hinj := List.inj_on_of_nodup_map hdisk
          exact hinj hm2d hm hm2path
        rw [← hm2it]
        show some (mkItem oracle m2).meta.mtime = some m.mtime
        rw [mkItem_meta, hm2eq]
      | none =>
        have hm_notproc : m ∉ syncToProcess dbFiles disk := by
          intro hmem
          rw [List.find?_eq_none] at hfind
          refine hfind (mkItem oracle m) (List.mem_map_of_mem _ hmem) ?_
          rw [mkItem_meta]
          exact beq_self_eq_true m.path
        have hpred : ¬((match mapGet (pairsOf dbFiles) m.path with
            | none => true
            | some mt => !(mt == m.mtime)) = true) := by
          intro hp
          exact hm_notproc (List.mem_filter.mpr ⟨hm, hp⟩)
        rw [deleteOps_files_get]
        rw [if_neg (by
          intro hdel
          exact mapGet_disk_ne_none hm (toDelete_path_none hdel))]
        exact procPred_false hpred


/-- C3.  Sync is idempotent: after a completed sync pass against an
unchanged filesystem (same scanned `{path, mtime}` set, with
duplicate-free paths), a second sync finds empty work lists, takes the
cheap early return, issues no transaction (zero writes) and leaves the
store untouched.  The second pass's resolver, clock, rowid counter and
parse oracle are arbitrary since nothing is parsed. -/
theorem sync_idempotent
    (resolve resolve2 : String → String → String) (now now2 : Int) (sid sid2 : Nat)
    (dbFiles : List FileRow) (disk : List FileMeta)
    (oracle oracle2 : String → Option ParsePayload)
    (hdisk : (disk.map FileMeta.path).Nodup) :
    (ensureCacheUpToDate resolve2 now2 sid2
        (ensureCacheUpToDate resolve now sid dbFiles disk oracle).files disk oracle2).early
      = true ∧
    (ensureCacheUpToDate resolve2 now2 sid2
        (ensureCacheUpToDate resolve now sid dbFiles disk oracle).files disk oracle2).txns
      = [] ∧
    (ensureCacheUpToDate resolve2 now2 sid2
        (ensureCacheUpToDate resolve now sid dbFiles disk oracle).files disk oracle2).files
      = (ensureCacheUpToDate resolve now sid dbFiles disk oracle).files := by
  obtain ⟨ha, hb⟩ := sync_files_post resolve now sid dbFiles disk oracle hdisk
  have hdel2 : syncToDelete (ensureCacheUpToDate resolve now sid dbFiles disk oracle).files
      disk = [] := by
    rw [syncToDelete]
    rw [show List.filter (fun f => (mapGet (diskPairsOf disk) f.path).isNone)
        (ensureCacheUpToDate resolve now sid dbFiles disk oracle).files = [] from by
      rw [List.filter_eq_nil_iff]
      intro f hf
      have := ha f hf
      cases hm : mapGet (diskPairsOf disk) f.path with
      | none => exact absurd hm this
      | some v => simp [hm]]
    rfl
  have hproc2 : syncToProcess (ensureCacheUpToDate resolve now sid dbFiles disk oracle).files
      disk = [] := by
    rw [syncToProcess, List.filter_eq_nil_iff]
    intro m hm
    rw [hb m hm]
    simp
  rw [ensureCacheUpToDate]
  simp only [hdel2, hproc2]
  simp


theorem sync_idempotent_witness :
    (ensureCacheUpToDate (fun _ _ => ("")) 100 9
        (ensureCacheUpToDate (fun _ _ => ("")) 99 7 [] [⟨("X.ts"), 5⟩] (fun _ => none)).files
        [⟨("X.ts"), 5⟩] (fun _ => none)).early = true ∧
    (ensureCacheUpToDate (fun _ _ => ("")) 100 9
        (ensureCacheUpToDate (fun _ _ => ("")) 99 7 [] [⟨("X.ts"), 5⟩] (fun _ => none)).files
        [⟨("X.ts"), 5⟩] (fun _ => none)).txns = [] ∧
    (ensureCacheUpToDate (fun _ _ => ("")) 100 9
        (ensureCacheUpToDate (fun _ _ => ("")) 99 7 [] [⟨("X.ts"), 5⟩] (fun _ => none)).files
        [⟨("X.ts"), 5⟩] (fun _ => none)).files =
      (ensureCacheUpToDate (fun _ _ => ("")) 99 7 [] [⟨("X.ts"), 5⟩] (fun _ => none)).files :=
  sync_idempotent (fun _ _ => ("")) (fun _ _ => ("")) 99 100 7 9 [] [⟨("X.ts"), 5⟩]
    (fun _ => none) (fun _ => none) (by decide)

/- ### C6: per-file parse failure degradation -/

theorem itemOps_mem_delete (resolve : String → String → String) (now : Int)
    (it : Item) (sid : Nat) :
    StoreOp.deleteFile it.meta.path ∈ (itemOps resolve now it sid).1 := by
  rw [itemOps]
  exact List.mem_cons_self _ _

theorem itemOps_mem_insertFile (resolve : String → String → String) (now : Int)
    (it : Item) (sid : Nat) :
    StoreOp.insertFile it.meta.path it.meta.mtime now
      (jsOrStr it.classification ("Unknown")) (jsOrStr it.summary ("")) ∈
      (itemOps resolve now it sid).1 := by
  rw [itemOps]
  exact List.mem_cons_of_mem _ (List.mem_cons_self _ _)

theorem itemsOps_mem_blocks (resolve : String → String → String) (now : Int) :
    ∀ (items : List Item) (sid : Nat), ∀ it ∈ items,
      StoreOp.deleteFile it.meta.path ∈ itemsOps resolve now items sid ∧
      StoreOp.insertFile it.meta.path it.meta.mtime now
        (jsOrStr it.classification ("Unknown")) (jsOrStr it.summary ("")) ∈
        itemsOps resolve now items sid := by
  intro items
  induction items with
  | nil =>
    intro sid it hit
    cases hit
  | cons hd rest ih =>
    intro sid it hit
    rw [show itemsOps resolve now (hd :: rest) sid =
      (itemOps resolve now hd sid).1 ++
        itemsOps resolve now rest (itemOps resolve now hd sid).2 from by rw [itemsOps]]
    rcases List.mem_cons.mp hit with h | h
    · subst h
      exact ⟨List.mem_append_left _ (itemOps_mem_delete resolve now it sid),
        List.mem_append_left _ (itemOps_mem_insertFile resolve now it sid)⟩
    · obtain ⟨h1, h2⟩ := ih (itemOps resolve now hd sid).2 it h
      exact ⟨List.mem_append_right _ h1, List.mem_append_right _ h2⟩

/-- A concrete successful parse payload used by the concrete runs below. -/
def okPayload : ParsePayload :=
  { exports := [⟨("f"), ("FunctionDeclaration"), ("sig"), none, 1, some 3, none, none, []⟩]
    imports := [⟨("./x"), ("f")⟩]
    configs := none
    classification := some ("Source")
    summary := some ("sum")
    content := ("body") }

/-- C6 (counterexample).  A sync pass over one changed file whose parse
throws commits the degraded record with file classification `Unknown`,
not `error`: the `kind := error` tag of the in-memory item is never
persisted, because the catch branch builds the item without a
`classification` field and the insert falls back to `Unknown`. -/
theorem parse_failure_commits_unknown :
    (ensureCacheUpToDate (fun _ _ => ("")) 99 7 [] [⟨("X.ts"), 5⟩] (fun _ => none)).items =
      [{ meta := ⟨("X.ts"), 5⟩, exports := [], imports := [], configs := none,
         content := some (""), classification := none, summary := none,
         kind := ("error") }] ∧
    (ensureCacheUpToDate (fun _ _ => ("")) 99 7 [] [⟨("X.ts"), 5⟩] (fun _ => none)).txns =
      [[StoreOp.deleteFile ("X.ts"),
        StoreOp.insertFile ("X.ts") 5 99 ("Unknown") (""),
        StoreOp.insertContent ("X.ts") ("")]] ∧
    (("Unknown") : String) ≠ ("error") := by
  refine ⟨by decide, by decide, by decide⟩

/-- C6 (amended).  When parsing a changed file throws, the file is
committed as a degraded record with empty exports, empty imports and
in-memory kind tag `error`; the committed file row's classification is
`Unknown` (the error tag is not persisted).  Every other changed file of
the pass is still processed — its parse outcome depends only on its own
oracle answer — and committed: each item's delete and file-insert
operations are present in the write transaction. -/
theorem sync_parse_failure_degrades
    (resolve : String → String → String) (now : Int) (sid : Nat)
    (oracle : String → Option ParsePayload) (meta : FileMeta)
    (hfail : oracle meta.path = none) :
    mkItem oracle meta =
      { meta := meta, exports := [], imports := [], configs := none,
        content := some (""), classification := none, summary := none,
        kind := ("error") } ∧
    (itemOps resolve now (mkItem oracle meta) sid).1 =
      [StoreOp.deleteFile meta.path,
       StoreOp.insertFile meta.path meta.mtime now ("Unknown") (""),
       StoreOp.insertContent meta.path ("")] ∧
    (∀ oracle2 : String → Option ParsePayload, ∀ meta2 : FileMeta,
      oracle2 meta2.path = oracle meta2.path → mkItem oracle2 meta2 = mkItem oracle meta2) ∧
    (∀ (items : List Item) (sid2 : Nat), ∀ it ∈ items,
      StoreOp.deleteFile it.meta.path ∈ itemsOps resolve now items sid2 ∧
      StoreOp.insertFile it.meta.path it.meta.mtime now
        (jsOrStr it.classification ("Unknown")) (jsOrStr it.summary ("")) ∈
        itemsOps resolve now items sid2) := by
  have hitem : mkItem oracle meta =
      { meta := meta, exports := [], imports := [], configs := none,
        content := some (""), classification := none, summary := none,
        kind := ("error") } := by
    rw [mkItem, hfail]
  refine ⟨hitem, ?_, ?_, itemsOps_mem_blocks resolve now⟩
  · rw [hitem, itemOps]
    rfl
  · intro oracle2 meta2 hsame
    rw [mkItem, mkItem, hsame]

theorem sync_parse_failure_degrades_witness :
    mkItem (fun _ => none) ⟨("X.ts"), 5⟩ =
      { meta := ⟨("X.ts"), 5⟩, exports := [], imports := [], configs := none,
        content := some (""), classification := none, summary := none,
        kind := ("error") } ∧
    (itemOps (fun _ _ => ("")) 99 (mkItem (fun _ => none) ⟨("X.ts"), 5⟩) 7).1 =
      [StoreOp.deleteFile ("X.ts"),
       StoreOp.insertFile ("X.ts") 5 99 ("Unknown") (""),
       StoreOp.insertContent ("X.ts") ("")] := by
  have h := sync_parse_failure_degrades (fun _ _ => ("")) 99 7 (fun _ => none)
    ⟨("X.ts"), 5⟩ rfl
  exact ⟨h.1, h.2.1⟩

/- ### C7: the write-back transaction structure -/

/-- Running check that every member row's `parent_id` refers to an export
row already inserted earlier in the operation list. -/
def pbAux (seen : List Nat) : List StoreOp → Bool
  | [] => true
  | op :: rest =>
    match op with
    | StoreOp.insertExport rid _ _ _ _ _ _ _ _ _ pid =>
      (match pid with
       | none => true
       | some p => seen.contains p) && pbAux (rid :: seen) rest
    | _ => pbAux seen rest

/-- The export rowids visible after a prefix of operations. -/
def seenAfter (seen : List Nat) : List StoreOp → List Nat
  | [] => seen
  | op :: rest =>
    match op with
    | StoreOp.insertExport rid _ _ _ _ _ _ _ _ _ _ => seenAfter (rid :: seen) rest
    | _ => seenAfter seen rest

theorem pbAux_append (a b : List StoreOp) : ∀ seen : List Nat,
    pbAux seen (a ++ b) = (pbAux seen a && pbAux (seenAfter seen a) b) := by
  induction a with
  | nil =>
    intro seen
    simp [pbAux, seenAfter]
  | cons op rest ih =>
    intro seen
    cases op with
    | insertExport rid fp n k sg d sl el c cp pid =>
      rw [List.cons_append]
      show ((match pid with | none => true | some p => seen.contains p) &&
        pbAux (rid :: seen) (rest ++ b)) = _
      rw [ih (rid :: seen)]
      show _ = ((match pid with | none => true | some p => seen.contains p) &&
        pbAux (rid :: seen) rest && pbAux (seenAfter (rid :: seen) rest) b)
      rw [Bool.and_assoc]
    | deleteFile p =>
      rw [List.cons_append]
      show pbAux seen (rest ++ b) = (pbAux seen rest && pbAux (seenAfter seen rest) b)
      exact ih seen
    | insertFile p m t c s =>
      rw [List.cons_append]
      show pbAux seen (rest ++ b) = (pbAux seen rest && pbAux (seenAfter seen rest) b)
      exact ih seen
    | insertImport fp m i r =>
      rw [List.cons_append]
      show pbAux seen (rest ++ b) = (pbAux seen rest && pbAux (seenAfter seen rest) b)
      exact ih seen
    | insertConfig fp k v kd =>
      rw [List.cons_append]
      show pbAux seen (rest ++ b) = (pbAux seen rest && pbAux (seenAfter seen rest) b)
      exact ih seen
    | insertContent fp c =>
      rw [List.cons_append]
      show pbAux seen (rest ++ b) = (pbAux seen rest && pbAux (seenAfter seen rest) b)
      exact ih seen

theorem memberOps_pb (fp : String) (parentId : Nat) :
    ∀ (ms : List MemberRec) (sid : Nat) (seen : List Nat), parentId ∈ seen →
      pbAux seen (memberOps fp parentId sid ms).1 = true := by
  intro ms
  induction ms with
  | nil =>
    intro sid seen hmem
    rfl
  | cons m rest ih =>
    intro sid seen hmem
    show ((match some parentId with
          | none => true
          | some p => seen.contains p) && pbAux (sid :: seen) (memberOps fp parentId (sid + 1) rest).1) = true
    rw [Bool.and_eq_true]
    refine ⟨?_, ih (sid + 1) (sid :: seen) (List.mem_cons_of_mem _ hmem)⟩
    show seen.contains parentId = true
    simpa using hmem

theorem exportOps_pb (fp : String) :
    ∀ (es : List ExportRec) (sid : Nat) (seen : List Nat),
      pbAux seen (exportOps fp sid es).1 = true := by
  intro es
  induction es with
  | nil =>
    intro sid seen
    rfl
  | cons e rest ih =>
    intro sid seen
    show (true && pbAux (sid :: seen)
      ((memberOps fp sid (sid + 1) e.members).1 ++
        (exportOps fp (memberOps fp sid (sid + 1) e.members).2 rest).1)) = true
    rw [Bool.true_and, pbAux_append, Bool.and_eq_true]
    exact ⟨memberOps_pb fp sid e.members (sid + 1) (sid :: seen) (List.mem_cons_self _ _),
      ih _ _⟩

/-- Operations that neither check nor extend the seen-rowid state. -/
def SkipOp (op : StoreOp) : Prop :=
  ∀ seen rest, pbAux seen (op :: rest) = pbAux seen rest ∧
    seenAfter seen (op :: rest) = seenAfter seen rest

theorem pbAux_skip (ops : List StoreOp) (hops : ∀ op ∈ ops, SkipOp op) :
    ∀ seen, pbAux seen ops = true ∧ seenAfter seen ops = seen := by
  induction ops with
  | nil =>
    intro seen
    exact ⟨rfl, rfl⟩
  | cons op rest ih =>
    intro seen
    obtain ⟨h1, h2⟩ := hops op (List.mem_cons_self _ _) seen rest
    obtain ⟨h3, h4⟩ := ih (fun o ho => hops o (List.mem_cons_of_mem _ ho)) seen
    exact ⟨by rw [h1, h3], by rw [h2, h4]⟩

theorem skip_insertImport (fp m i r : String) : SkipOp (StoreOp.insertImport fp m i r) :=
  fun _ _ => ⟨rfl, rfl⟩

theorem skip_insertConfig (fp k v kd : String) : SkipOp (StoreOp.insertConfig fp k v kd) :=
  fun _ _ => ⟨rfl, rfl⟩

theorem skip_insertContent (fp c : String) : SkipOp (StoreOp.insertContent fp c) :=
  fun _ _ => ⟨rfl, rfl⟩

theorem skip_deleteFile (p : String) : SkipOp (StoreOp.deleteFile p) :=
  fun _ _ => ⟨rfl, rfl⟩

theorem skip_insertFile (p : String) (m t : Int) (c s : String) :
    SkipOp (StoreOp.insertFile p m t c s) :=
  fun _ _ => ⟨rfl, rfl⟩

theorem itemOps_pb (resolve : String → String → String) (now : Int) (it : Item)
    (sid : Nat) : ∀ seen, pbAux seen (itemOps resolve now it sid).1 = true := by
  intro seen
  rw [show (itemOps resolve now it sid).1 =
    [StoreOp.deleteFile it.meta.path,
     StoreOp.insertFile it.meta.path it.meta.mtime now
       (jsOrStr it.classification ("Unknown")) (jsOrStr it.summary (""))] ++
    ((exportOps it.meta.path sid it.exports).1 ++
      (importOps resolve it.meta.path it.imports ++
        (configOps it.meta.path it.configs ++ contentOps it.meta.path it.content))) from by
      rw [itemOps]
      simp [List.append_assoc]]
  rw [pbAux_append, Bool.and_eq_true]
  obtain ⟨hpre1, hpre2⟩ := pbAux_skip
    [StoreOp.deleteFile it.meta.path,
     StoreOp.insertFile it.meta.path it.meta.mtime now
       (jsOrStr it.classification ("Unknown")) (jsOrStr it.summary (""))]
    (by
      intro op hop
      rcases List.mem_cons.mp hop with h | h
      · rw [h]
        exact skip_deleteFile _
      · rcases List.mem_singleton.mp h with h2
        rw [h2]
        exact skip_insertFile _ _ _ _ _) seen
  refine ⟨hpre1, ?_⟩
  rw [hpre2, pbAux_append, Bool.and_eq_true]
  refine ⟨exportOps_pb it.meta.path it.exports sid seen, ?_⟩
  obtain ⟨him, -⟩ := pbAux_skip
    (importOps resolve it.meta.path it.imports ++
      (configOps it.meta.path it.configs ++ contentOps it.meta.path it.content))
    (by
      intro op hop
      rcases List.mem_append.mp hop with h | h
      · rw [importOps, List.mem_map] at h
        obtain ⟨imp, -, heq⟩ := h
        rw [← heq]
        exact skip_insertImport _ _ _ _
      · rcases List.mem_append.mp h with h2 | h2
        · cases hc : it.configs with
          | none =>
            rw [hc] at h2
            cases h2
          | some cs =>
            rw [hc] at h2
            rw [configOps, List.mem_map] at h2
            obtain ⟨c, -, heq⟩ := h2
            rw [← heq]
            exact skip_insertConfig _ _ _ _
        · cases hcont : it.content with
          | none =>
            rw [hcont] at h2
            cases h2
          | some c =>
            rw [hcont] at h2
            rcases List.mem_singleton.mp h2 with h3
            rw [h3]
            exact skip_insertContent _ _)
    (seenAfter seen (exportOps it.meta.path sid it.exports).1)
  exact him

theorem itemsOps_pb (resolve : String → String → String) (now : Int) :
    ∀ (items : List Item) (sid : Nat) (seen : List Nat),
      pbAux seen (itemsOps resolve now items sid) = true := by
  intro items
  induction items with
  | nil =>
    intro sid seen
    rfl
  | cons it rest ih =>
    intro sid seen
    rw [show itemsOps resolve now (it :: rest) sid =
      (itemOps resolve now it sid).1 ++
        itemsOps resolve now rest (itemOps resolve now it sid).2 from by rw [itemsOps]]
    rw [pbAux_append, Bool.and_eq_true]
    exact ⟨itemOps_pb resolve now it sid seen, ih _ _⟩

/-- C7 (counterexample).  A pass with two changed files and no deletions
issues a single write transaction covering both files' rows, not one
transaction per file: the claim's per-file transactional write-back does
not hold of the code. -/
theorem batch_transaction_not_per_file :
    (ensureCacheUpToDate (fun _ _ => ("")) 99 7 [] [⟨("X.ts"), 5⟩, ⟨("Y.ts"), 6⟩]
      (fun _ => some okPayload)).items.length = 2 ∧
    (ensureCacheUpToDate (fun _ _ => ("")) 99 7 [] [⟨("X.ts"), 5⟩, ⟨("Y.ts"), 6⟩]
      (fun _ => some okPayload)).txns.length = 1 := by
  refine ⟨by decide, by decide⟩

/-- C7 (amended).  The write-back commits all changed files of a pass in
one single write transaction (preceded, when files were deleted, by one
deletion transaction): the transaction list of a non-trivial pass is the
optional deletion transaction followed by exactly one transaction holding
every item's block; and inside the write transaction every member export
row's `parent_id` refers to a parent export row inserted earlier
(parents before children). -/
theorem batch_write_back_structure
    (resolve : String → String → String) (now : Int) (sid : Nat)
    (dbFiles : List FileRow) (disk : List FileMeta)
    (oracle : String → Option ParsePayload) :
    ((ensureCacheUpToDate resolve now sid dbFiles disk oracle).items ≠ [] →
      (ensureCacheUpToDate resolve now sid dbFiles disk oracle).txns =
        (if (ensureCacheUpToDate resolve now sid dbFiles disk oracle).toDelete.isEmpty then []
         else [(ensureCacheUpToDate resolve now sid dbFiles disk oracle).toDelete.map
           StoreOp.deleteFile]) ++
        [itemsOps resolve now (ensureCacheUpToDate resolve now sid dbFiles disk oracle).items
          sid]) ∧
    (∀ (items : List Item) (sid2 : Nat) (seen : List Nat),
      pbAux seen (itemsOps resolve now items sid2) = true) := by
  refine ⟨?_, itemsOps_pb resolve now⟩
  by_cases hearly : ((syncToDelete dbFiles disk).isEmpty &&
      (syncToProcess dbFiles disk).isEmpty) = true
  · intro hne
    exfalso
    apply hne
    rw [ensureCacheUpToDate]
    simp only [hearly, if_pos]
  · intro hne
    have hitems : (ensureCacheUpToDate resolve now sid dbFiles disk oracle).items =
        (syncToProcess dbFiles disk).map (mkItem oracle) := by
      rw [ensureCacheUpToDate]
      simp only [hearly, if_neg, if_false, Bool.false_eq_true]
    have htodel : (ensureCacheUpToDate resolve now sid dbFiles disk oracle).toDelete =
        syncToDelete dbFiles disk := by
      rw [ensureCacheUpToDate]
      simp only [hearly, if_neg, if_false, Bool.false_eq_true]
    have htxns : (ensureCacheUpToDate resolve now sid dbFiles disk oracle).txns =
        (if (syncToDelete dbFiles disk).isEmpty then []
          else [(syncToDelete dbFiles disk).map StoreOp.deleteFile]) ++
        (if ((syncToProcess dbFiles disk).map (mkItem oracle)).isEmpty then []
          else [itemsOps resolve now ((syncToProcess dbFiles disk).map (mkItem oracle)) sid]) := by
      rw [ensureCacheUpToDate]
      simp only [hearly, if_neg, if_false, Bool.false_eq_true]
    rw [hitems] at hne
    rw [htxns, hitems, htodel]
    rw [if_neg (fun hempty => hne (List.isEmpty_iff.mp hempty))]

theorem batch_write_back_structure_witness :
    (ensureCacheUpToDate (fun _ _ => ("")) 99 7 [] [⟨("X.ts"), 5⟩, ⟨("Y.ts"), 6⟩]
        (fun _ => some okPayload)).txns =
      (if (ensureCacheUpToDate (fun _ _ => ("")) 99 7 [] [⟨("X.ts"), 5⟩, ⟨("Y.ts"), 6⟩]
          (fun _ => some okPayload)).toDelete.isEmpty then []
       else [(ensureCacheUpToDate (fun _ _ => ("")) 99 7 [] [⟨("X.ts"), 5⟩, ⟨("Y.ts"), 6⟩]
          (fun _ => some okPayload)).toDelete.map StoreOp.deleteFile]) ++
      [itemsOps (fun _ _ => ("")) 99
        (ensureCacheUpToDate (fun _ _ => ("")) 99 7 [] [⟨("X.ts"), 5⟩, ⟨("Y.ts"), 6⟩]
          (fun _ => some okPayload)).items 7] ∧
    pbAux [] (itemsOps (fun _ _ => ("")) 99
      [mkItem (fun _ => some okPayload) ⟨("X.ts"), 5⟩] 7) = true :=
  ⟨(batch_write_back_structure (fun _ _ => ("")) 99 7 [] [⟨("X.ts"), 5⟩, ⟨("Y.ts"), 6⟩]
      (fun _ => some okPayload)).1 (by decide),
   (batch_write_back_structure (fun _ _ => ("")) 99 7 [] [⟨("X.ts"), 5⟩, ⟨("Y.ts"), 6⟩]
      (fun _ => some okPayload)).2 [mkItem (fun _ => some okPayload) ⟨("X.ts"), 5⟩] 7 []⟩

/- ### Import resolver (src/resolver/index.ts, src/resolver/path-normalizer.ts)

The resolver probes the filesystem through an abstract environment:
`isFile` models `fs.existsSync && fs.statSync(...).isFile()`, `isDir`
models the directory test, `exists` models a bare `fs.existsSync`, and
`resolvePath`/`dirname` stand for Node's `path.resolve`/`path.dirname`
(joins are modelled with a slash).  The tsconfig-paths matcher and the
workspace package map are external inputs carried in `ResolverConfig`;
`none` for the config models `initResolver` finding no tsconfig. -/

structure ResolverEnv where
  isFile : String → Bool
  isDir : String → Bool
  pathExists : String → Bool
  resolvePath : String → String → String
  dirname : String → String

structure WorkspacePkg where
  path : String
  main : String
deriving DecidableEq, Repr

structure ResolverConfig where
  baseUrl : String
  matchPath : String → Option String
  workspacePackages : List (String × WorkspacePkg)

/-- Prefix test over the character lists (kernel-friendly `startsWith`). -/
def strStartsWith (s pre : String) : Bool := chPre pre.data s.data

/-- Node `path.extname`: the extension of the last path component,
empty when there is no dot or the dot is the component's first character. -/
def extOf (s : String) : String :=
  let base := (s.data.reverse.takeWhile (fun c => !(c = '/'))).reverse
  match base with
  | [] => ("")
  | _ :: rest =>
    let extRev := rest.reverse.takeWhile (fun c => !(c = '.'))
    if extRev.length = rest.length then ("")
    else ⟨'.' :: extRev.reverse⟩

def SUPPORTED_EXTENSIONS : List String :=
  [(".ts"), (".tsx"), (".d.ts"), (".js"), (".jsx"), ("")]

/-- Embedding of `normalizeResolvedPath`: swap a generic script extension
for the source-language ones, then probe the supported extensions, then
probe a directory's index files; empty string when nothing matches. -/
def normalizeResolvedPath (env : ResolverEnv) (p : String) : String :=
  let ext := extOf p
  let jsTry : Option String :=
    if ext = (".js") ∨ ext = (".jsx") then
      let basePath : String := ⟨p.data.take (p.data.length - ext.data.length)⟩
      let tsExts := if ext = (".jsx") then [(".tsx"), (".ts")] else [(".ts"), (".tsx")]
      match tsExts.find? (fun e => env.isFile (basePath ++ e)) with
      | some e => some (basePath ++ e)
      | none => if env.isFile p then some p else none
    else none
  match jsTry with
  | some r => r
  | none =>
    match SUPPORTED_EXTENSIONS.find? (fun e => env.isFile (p ++ e)) with
    | some e => p ++ e
    | none =>
      if env.isDir p then
        match [(".ts"), (".tsx"), (".js"), (".jsx")].find?
            (fun e => env.pathExists (p ++ ("/index") ++ e)) with
        | some e => p ++ ("/index") ++ e
        | none => ("")
      else ("")

/-- Embedding of `resolveImportPath`: relative specifiers resolve against
the importing file's directory; otherwise try the tsconfig alias matcher,
then the base-directory join (skipped for scoped `@pkg` specifiers other
than `@/`), then the workspace package map (preferring `src/index.ts`
over the declared entry point); anything unmatched yields the empty
string, the stored external/unresolved marker. -/
def resolveImportPath (env : ResolverEnv) (cfg : Option ResolverConfig)
    (importSpecifier importingFilePath : String) : String :=
  if strStartsWith importSpecifier (".") then
    normalizeResolvedPath env
      (env.resolvePath (env.dirname importingFilePath) importSpecifier)
  else
    match cfg with
    | some resolver =>
      match resolver.matchPath importSpecifier with
      | some aliasResolved => normalizeResolvedPath env aliasResolved
      | none =>
        let baseTry : String :=
          if !(strStartsWith importSpecifier ("@")) ||
              strStartsWith importSpecifier ("@/") then
            normalizeResolvedPath env (env.resolvePath resolver.baseUrl importSpecifier)
          else ("")
        if baseTry ≠ ("") then baseTry
        else
          match resolver.workspacePackages.find? (fun pk => pk.1 == importSpecifier) with
          | some pk =>
            if env.pathExists (pk.2.path ++ ("/src/index.ts")) then
              pk.2.path ++ ("/src/index.ts")
            else
              let entry := pk.2.path ++ ("/") ++ pk.2.main
              let resolved := normalizeResolvedPath env entry
              if resolved ≠ ("") then resolved else ("")
          | none => ("")
    | none => ("")

/-- The per-edge presentation of `handleGetFileDependencies`:
`resolvedPath: imp.resolved_path || null` and
`isExternal: !imp.resolved_path`. -/
structure DepView where
  module : String
  symbols : String
  resolvedPath : Option String
  isExternal : Bool
deriving DecidableEq, Repr

def presentImportRow (r : ImportRow) : DepView :=
  { module := r.module_specifier
    symbols := r.imported_symbols
    resolvedPath := if r.resolved_path = ("") then none else some r.resolved_path
    isExternal := r.resolved_path = ("") }

/-- C8.  A specifier matched by no strategy — not relative, no alias
match, base-directory probe failing (or skipped by the scope guard), no
workspace package — resolves to the empty-string external marker; the
sync write-back still records the edge for it (one `insertImport` for
each import record, failures included) alongside the file's other rows, and
the dependency handler presents the stored marker as a null resolved
path flagged external. -/
theorem unresolved_import_is_normal
    (env : ResolverEnv) (cfg : ResolverConfig) (spec f : String)
    (h1 : strStartsWith spec (".") = false)
    (h2 : cfg.matchPath spec = none)
    (h3 : normalizeResolvedPath env (env.resolvePath cfg.baseUrl spec) = (""))
    (h4 : cfg.workspacePackages.find? (fun pk => pk.1 == spec) = none) :
    resolveImportPath env (some cfg) spec f = ("") ∧
    (∀ (names : String) (item : Item) (sid : Nat),
      item.meta.path = f → ⟨spec, names⟩ ∈ item.imports →
      StoreOp.insertImport f spec names ("") ∈
        (itemOps (resolveImportPath env (some cfg)) 0 item sid).1) ∧
    (∀ imp : ImportRec, ∀ item : Item, ∀ sid : Nat, imp ∈ item.imports →
      StoreOp.insertImport item.meta.path imp.module imp.name
        (resolveImportPath env (some cfg) imp.module item.meta.path) ∈
        (itemOps (resolveImportPath env (some cfg)) 0 item sid).1) ∧
    presentImportRow ⟨f, spec, ("S"), resolveImportPath env (some cfg) spec f⟩ =
      { module := spec, symbols := ("S"), resolvedPath := none, isExternal := true } := by
  have hres : resolveImportPath env (some cfg) spec f = ("") := by
    rw [resolveImportPath]
    rw [if_neg (by rw [h1]; exact Bool.false_ne_true)]
    simp only [h2]
    have hbase : (if !(strStartsWith spec ("@")) || strStartsWith spec ("@/") then
        normalizeResolvedPath env (env.resolvePath cfg.baseUrl spec) else ("")) = ("") := by
      by_cases hg : (!(strStartsWith spec ("@")) || strStartsWith spec ("@/")) = true
      · rw [if_pos hg, h3]
      · rw [if_neg hg]
    simp only [hbase]
    rw [if_neg (by simp), h4]
  have hmemimp : ∀ imp : ImportRec, ∀ item : Item, ∀ sid : Nat, imp ∈ item.imports →
      StoreOp.insertImport item.meta.path imp.module imp.name
        (resolveImportPath env (some cfg) imp.module item.meta.path) ∈
        (itemOps (resolveImportPath env (some cfg)) 0 item sid).1 := by
    intro imp item sid hmem
    rw [itemOps]
    refine List.mem_append_left _ ?_
    refine List.mem_append_left _ ?_
    refine List.mem_append_right _ ?_
    show _ ∈ item.imports.map (fun imp => StoreOp.insertImport item.meta.path imp.module
      imp.name (resolveImportPath env (some cfg) imp.module item.meta.path))
    exact List.mem_map_of_mem _ hmem
  refine ⟨hres, ?_, hmemimp, ?_⟩
  · intro names item sid hpath hmem
    have := hmemimp ⟨spec, names⟩ item sid hmem
    rw [hpath, hres] at this
    exact this
  · rw [presentImportRow, hres]
    simp

/-- A resolver environment over an empty filesystem, with a slash-join
`path.resolve` model. -/
def emptyEnv : ResolverEnv :=
  { isFile := fun _ => false
    isDir := fun _ => false
    pathExists := fun _ => false
    resolvePath := fun d s => d ++ ("/") ++ s
    dirname := fun s => s }

/-- A resolver configuration with no alias patterns and no workspace
packages. -/
def noMatchCfg : ResolverConfig :=
  { baseUrl := ("/repo")
    matchPath := fun _ => none
    workspacePackages := [] }

theorem unresolved_import_is_normal_witness :
    resolveImportPath emptyEnv (some noMatchCfg) ("left-pad") ("/repo/src/a.ts") = ("") ∧
    StoreOp.insertImport ("/repo/src/a.ts") ("left-pad") ("S") ("") ∈
      (itemOps (resolveImportPath emptyEnv (some noMatchCfg)) 0
        { meta := ⟨("/repo/src/a.ts"), 1⟩, exports := [],
          imports := [⟨("left-pad"), ("S")⟩], configs := none, content := none,
          classification := none, summary := none, kind := ("code") } 3).1 ∧
    presentImportRow ⟨("/repo/src/a.ts"), ("left-pad"), ("S"),
        resolveImportPath emptyEnv (some noMatchCfg) ("left-pad") ("/repo/src/a.ts")⟩ =
      { module := ("left-pad"), symbols := ("S"), resolvedPath := none,
        isExternal := true } := by
  have h := unresolved_import_is_normal emptyEnv noMatchCfg ("left-pad") ("/repo/src/a.ts")
    (by decide) rfl (by decide) rfl
  refine ⟨h.1, ?_, h.2.2.2⟩
  exact h.2.1 ("S")
    { meta := ⟨("/repo/src/a.ts"), 1⟩, exports := [],
      imports := [⟨("left-pad"), ("S")⟩], configs := none, content := none,
      classification := none, summary := none, kind := ("code") } 3 rfl
    (List.mem_singleton.mpr rfl)

end TsRepoPrep
